import Mathlib

/-!
Verification development for `encode_opcode.go`: the compiled instruction
graph ("opcode graph") of a value-to-JSON encoder.  Opcode nodes are
allocated in an arena (`Heap`), node references (`*opcode` in the source)
are `Option Nat` indices into the arena, and `nil` is `none`.  `uintptr`
values are `Nat` with explicit wraparound modulo `2 ^ 64` where the source
can underflow.  Loops (`for` walks over the graph) are modelled with
explicit fuel and return `Option` results, where `none` means the walk ran
out of fuel or dereferenced a nil/dangling pointer (a Go panic).
-/

namespace GoJson

/-- Modelled from the spec: the operation-kind enumeration (`opType`,
generated file `encode_optype.go`, not part of the sources).  Only the
kinds this file's logic distinguishes are materialised; `opStructField`
stands for the family of record-field-emission kinds and `opOther` for
every remaining kind. -/
inductive opType where
  | opEnd
  | opInterface
  | opInterfaceEnd
  | opStructFieldRecursive
  | opStructFieldRecursiveEnd
  | opSliceHead
  | opSliceElem
  | opArrayHead
  | opArrayElem
  | opMapHead
  | opMapHeadLoad
  | opMapKey
  | opMapValue
  | opMapEnd
  | opStructField
  | opOther
deriving DecidableEq, Repr

/-- Modelled from the spec: the code-type classification of operation kinds
(`codeType()` in the generated `encode_optype.go`).  The fallthrough rule of
the spec distinguishes array-element, slice-element and map-key kinds (which
fall through along `end`) from all others (which fall through along `next`). -/
inductive codeKind where
  | codeOp
  | codeSliceHead
  | codeSliceElem
  | codeArrayHead
  | codeArrayElem
  | codeMapHead
  | codeMapKey
  | codeMapValue
  | codeMapEnd
  | codeStructField
deriving DecidableEq, Repr

/-- Modelled from the spec: which code type each operation kind belongs to. -/
def opType.codeType : opType → codeKind
  | .opSliceHead => .codeSliceHead
  | .opSliceElem => .codeSliceElem
  | .opArrayHead => .codeArrayHead
  | .opArrayElem => .codeArrayElem
  | .opMapHead => .codeMapHead
  | .opMapHeadLoad => .codeMapHead
  | .opMapKey => .codeMapKey
  | .opMapValue => .codeMapValue
  | .opMapEnd => .codeMapEnd
  | .opStructField => .codeStructField
  | .opStructFieldRecursive => .codeStructField
  | _ => .codeOp

/-- Modelled from the spec: the display name of an operation kind (the
`String()` method of `opType`, generated).  Names are distinct per kind;
the dump contract only relies on determinism. -/
def opType.opName : opType → String
  | .opEnd => "END"
  | .opInterface => "INTERFACE"
  | .opInterfaceEnd => "INTERFACE_END"
  | .opStructFieldRecursive => "STRUCT_FIELD_RECURSIVE"
  | .opStructFieldRecursiveEnd => "STRUCT_FIELD_RECURSIVE_END"
  | .opSliceHead => "SLICE_HEAD"
  | .opSliceElem => "SLICE_ELEM"
  | .opArrayHead => "ARRAY_HEAD"
  | .opArrayElem => "ARRAY_ELEM"
  | .opMapHead => "MAP_HEAD"
  | .opMapHeadLoad => "MAP_HEAD_LOAD"
  | .opMapKey => "MAP_KEY"
  | .opMapValue => "MAP_VALUE"
  | .opMapEnd => "MAP_END"
  | .opStructField => "STRUCT_FIELD"
  | .opOther => "OP"

/-- `var uintptrSize = unsafe.Sizeof(uintptr(0))`: one machine word, 8 bytes. -/
def uintptrSize : Nat := 8

/-- The word width of `uintptr` arithmetic. -/
def uintptrMod : Nat := 2 ^ 64

/-- The opcode node (`type opcode struct`).  Pointer fields (`*opcode`) are
arena indices; `typ *rtype` and `jmp *compiledCode` are opaque handles
(`Option Nat`).  `end` is a Lean keyword, hence the field is named `end_`. -/
structure opcode where
  op : opType
  typ : Option Nat := none
  displayIdx : Int := 0
  key : List Nat := []
  escapedKey : List Nat := []
  displayKey : String := ""
  isTaggedKey : Bool := false
  anonymousKey : Bool := false
  root : Bool := false
  indent : Nat := 0
  idx : Nat := 0
  headIdx : Nat := 0
  elemIdx : Nat := 0
  length : Nat := 0
  mapIter : Nat := 0
  mapPos : Nat := 0
  offset : Nat := 0
  size : Nat := 0
  mapKey : Option Nat := none
  mapValue : Option Nat := none
  elem : Option Nat := none
  end_ : Option Nat := none
  nextField : Option Nat := none
  next : Option Nat := none
  jmp : Option Nat := none
deriving DecidableEq, Repr

/-- The arena of allocated opcode nodes; a `*opcode` is an index into it. -/
abbrev Heap := List opcode

/-- Arena read: dereference an opcode pointer. -/
def hget : Heap → Nat → Option opcode
  | [], _ => none
  | c :: _, 0 => some c
  | _ :: t, n + 1 => hget t n

/-- Arena write: in-place mutation of the node at an index. -/
def hset : Heap → Nat → opcode → Heap
  | [], _, _ => []
  | _ :: t, 0, d => d :: t
  | c :: t, n + 1, d => c :: hset t n d

/-- Arena allocation (`&opcode{...}` in Go): append a fresh node, return its
index (a fresh identity). -/
def alloc (h : Heap) (c : opcode) : Heap × Nat := (h ++ [c], h.length)

/-- Modelled from the spec: the compile context (`encodeCompileContext`,
defined in another file of the repository).  It carries the type being
compiled, the instruction-display counter, the next free register-slot
index and the nesting depth, plus the root flag. -/
structure encodeCompileContext where
  typ : Option Nat := none
  opcodeIndex : Int := 0
  ptrIndex : Nat := 0
  indent : Nat := 0
  root : Bool := false
deriving DecidableEq, Repr

/-- Modelled from the spec: `ctx.incPtrIndex()` consumes one register slot. -/
def encodeCompileContext.incPtrIndex (ctx : encodeCompileContext) :
    encodeCompileContext :=
  { ctx with ptrIndex := ctx.ptrIndex + 1 }

/-- `func opcodeOffset(idx int) uintptr { return uintptr(idx) * uintptrSize }` -/
def opcodeOffset (idx : Nat) : Nat := idx * uintptrSize

/-- `newOpCodeWithNext`: build a node with the given `next` link. -/
def newOpCodeWithNext (ctx : encodeCompileContext) (op : opType)
    (next : Option Nat) (h : Heap) : Heap × Nat :=
  alloc h
    { op := op
      typ := ctx.typ
      displayIdx := ctx.opcodeIndex
      indent := ctx.indent
      idx := opcodeOffset ctx.ptrIndex
      next := next }

/-- `newEndOp`: the terminal node, with an empty `next`. -/
def newEndOp (ctx : encodeCompileContext) (h : Heap) : Heap × Nat :=
  newOpCodeWithNext ctx .opEnd none h

/-- `newOpCode`: a node whose `next` is a freshly allocated terminal. -/
def newOpCode (ctx : encodeCompileContext) (op : opType) (h : Heap) :
    Heap × Nat :=
  let (h1, e) := newEndOp ctx h
  newOpCodeWithNext ctx op (some e) h1

/-- The fallthrough successor of a node: `end` for the array-element,
slice-element and map-key code types, `next` otherwise (the `switch` on
`code.op.codeType()` repeated in `beforeLastCode`, `totalLength`,
`decOpcodeIndex` and `linkPrevToNextField`). -/
def fallthrough (c : opcode) : Option Nat :=
  match c.op.codeType with
  | .codeArrayElem => c.end_
  | .codeSliceElem => c.end_
  | .codeMapKey => c.end_
  | _ => c.next

/-- `beforeLastCode`: walk the fallthrough chain and return the node whose
fallthrough successor is the terminal. -/
def beforeLastCode (h : Heap) : Nat → Nat → Option Nat
  | 0, _ => none
  | fuel + 1, i =>
    match hget h i with
    | none => none
    | some code =>
      match fallthrough code with
      | none => none
      | some j =>
        match hget h j with
        | none => none
        | some nextCode =>
          if nextCode.op = .opEnd then some i
          else beforeLastCode h fuel j

/-- The loop of `totalLength`, carrying the running `idx` local variable
(the stride-unit offset recorded by the previous iteration). -/
def totalLengthAux (h : Heap) : Nat → Nat → Nat → Option Nat
  | 0, _, _ => none
  | fuel + 1, i, idx =>
    match hget h i with
    | none => none
    | some code =>
      if code.op = .opEnd then some (idx + 2)
      else
        let idx := code.idx / uintptrSize
        if code.op = .opInterfaceEnd ∨ code.op = .opStructFieldRecursiveEnd
        then some (idx + 2)
        else
          match fallthrough code with
          | none => none
          | some j => totalLengthAux h fuel j idx

/-- `totalLength`: the register-file size of the graph rooted at `i`;
`idx + 2` for the last `idx` recorded before the terminal (or before the
polymorphic-end / recursive-field-end early stops). -/
def totalLength (h : Heap) (i : Nat) (fuel : Nat) : Option Nat :=
  totalLengthAux h fuel i 0

/-- A `uintptr` decrement by one word (`x -= uintptrSize`), with the
wraparound Go's unsigned arithmetic performs below `uintptrSize`. -/
def subStride (x : Nat) : Nat := (x + (uintptrMod - uintptrSize)) % uintptrMod

/-- The per-node mutation performed by one iteration of `decOpcodeIndex`:
decrement the display index and every populated slot offset, except the
`length` of fixed-array heads/elements (a literal count), and except
`mapPos`, which the loop does not touch. -/
def decNode (c : opcode) : opcode :=
  { c with
    displayIdx := c.displayIdx - 1
    idx := subStride c.idx
    headIdx := if c.headIdx > 0 then subStride c.headIdx else c.headIdx
    elemIdx := if c.elemIdx > 0 then subStride c.elemIdx else c.elemIdx
    mapIter := if c.mapIter > 0 then subStride c.mapIter else c.mapIter
    length :=
      if c.length > 0 ∧ c.op.codeType ≠ .codeArrayHead ∧
          c.op.codeType ≠ .codeArrayElem
      then subStride c.length else c.length }

/-- `decOpcodeIndex`: walk the fallthrough chain from `i`, applying
`decNode` to every node until the terminal is reached. -/
def decOpcodeIndex (h : Heap) : Nat → Nat → Option Heap
  | 0, _ => none
  | fuel + 1, i =>
    match hget h i with
    | none => none
    | some code =>
      if code.op = .opEnd then some h
      else
        let h' := hset h i (decNode code)
        match fallthrough code with
        | none => none
        | some j => decOpcodeIndex h' fuel j

/-- `strings.Repeat("-", n)`. -/
def dashes (n : Nat) : String := String.mk (List.replicate n '-')

/-- `dumpHead`: the dump line of a slice/array head node. -/
def dumpHead (code : opcode) : String :=
  let length : Nat :=
    if code.op.codeType = .codeArrayHead then code.length
    else code.length / uintptrSize
  "[" ++ toString code.displayIdx ++ "]" ++ dashes code.indent ++
    code.op.opName ++ " ([idx:" ++ toString (code.idx / uintptrSize) ++
    "][headIdx:" ++ toString (code.headIdx / uintptrSize) ++
    "][elemIdx:" ++ toString (code.elemIdx / uintptrSize) ++
    "][length:" ++ toString length ++ "])"

/-- `dumpMapHead`: the dump line of a map head node. -/
def dumpMapHead (code : opcode) : String :=
  "[" ++ toString code.displayIdx ++ "]" ++ dashes code.indent ++
    code.op.opName ++ " ([idx:" ++ toString (code.idx / uintptrSize) ++
    "][headIdx:" ++ toString (code.headIdx / uintptrSize) ++
    "][elemIdx:" ++ toString (code.elemIdx / uintptrSize) ++
    "][length:" ++ toString (code.length / uintptrSize) ++
    "][mapIter:" ++ toString (code.mapIter / uintptrSize) ++ "])"

/-- `dumpMapEnd`: the dump line of a map end node. -/
def dumpMapEnd (code : opcode) : String :=
  "[" ++ toString code.displayIdx ++ "]" ++ dashes code.indent ++
    code.op.opName ++ " ([idx:" ++ toString (code.idx / uintptrSize) ++
    "][mapPos:" ++ toString (code.mapPos / uintptrSize) ++
    "][length:" ++ toString (code.length / uintptrSize) ++ "])"

/-- `dumpElem`: the dump line of an array/slice element node. -/
def dumpElem (code : opcode) : String :=
  let length : Nat :=
    if code.op.codeType = .codeArrayElem then code.length
    else code.length / uintptrSize
  "[" ++ toString code.displayIdx ++ "]" ++ dashes code.indent ++
    code.op.opName ++ " ([idx:" ++ toString (code.idx / uintptrSize) ++
    "][headIdx:" ++ toString (code.headIdx / uintptrSize) ++
    "][elemIdx:" ++ toString (code.elemIdx / uintptrSize) ++
    "][length:" ++ toString length ++
    "][size:" ++ toString code.size ++ "])"

/-- `dumpField`: the dump line of a struct field node. -/
def dumpField (code : opcode) : String :=
  "[" ++ toString code.displayIdx ++ "]" ++ dashes code.indent ++
    code.op.opName ++ " ([idx:" ++ toString (code.idx / uintptrSize) ++
    "][key:" ++ code.displayKey ++
    "][offset:" ++ toString code.offset ++
    "][headIdx:" ++ toString (code.headIdx / uintptrSize) ++ "])"

/-- `dumpKey`: the dump line of a map key node. -/
def dumpKey (code : opcode) : String :=
  "[" ++ toString code.displayIdx ++ "]" ++ dashes code.indent ++
    code.op.opName ++ " ([idx:" ++ toString (code.idx / uintptrSize) ++
    "][elemIdx:" ++ toString (code.elemIdx / uintptrSize) ++
    "][length:" ++ toString (code.length / uintptrSize) ++
    "][mapIter:" ++ toString (code.mapIter / uintptrSize) ++ "])"

/-- `dumpValue`: the dump line of a map value node. -/
def dumpValue (code : opcode) : String :=
  "[" ++ toString code.displayIdx ++ "]" ++ dashes code.indent ++
    code.op.opName ++ " ([idx:" ++ toString (code.idx / uintptrSize) ++
    "][mapIter:" ++ toString (code.mapIter / uintptrSize) ++ "])"

/-- The default dump line (`fmt.Sprintf("[%d]%s%s ([idx:%d])", ...)`). -/
def dumpDefault (code : opcode) : String :=
  "[" ++ toString code.displayIdx ++ "]" ++ dashes code.indent ++
    code.op.opName ++ " ([idx:" ++ toString (code.idx / uintptrSize) ++ "])"

/-- The loop of `dump`: collect one formatted line per node along the walk,
choosing the line format and the step edge by the node's code type. -/
def dumpLines (h : Heap) : Nat → Nat → Option (List String)
  | 0, _ => none
  | fuel + 1, i =>
    match hget h i with
    | none => none
    | some code =>
      if code.op = .opEnd then some []
      else
        let (line, step) : String × Option Nat :=
          match code.op.codeType with
          | .codeSliceHead => (dumpHead code, code.next)
          | .codeMapHead => (dumpMapHead code, code.next)
          | .codeArrayElem => (dumpElem code, code.end_)
          | .codeSliceElem => (dumpElem code, code.end_)
          | .codeMapKey => (dumpKey code, code.end_)
          | .codeMapValue => (dumpValue code, code.next)
          | .codeMapEnd => (dumpMapEnd code, code.next)
          | .codeStructField => (dumpField code, code.next)
          | _ => (dumpDefault code, code.next)
        match step with
        | none => none
        | some j => (dumpLines h fuel j).map (line :: ·)

/-- `dump`: the newline-joined disassembly of the graph rooted at `i`. -/
def dump (h : Heap) (i : Nat) (fuel : Nat) : Option String :=
  (dumpLines h fuel i).map (String.intercalate "\n")

/-- The search loop of `linkPrevToNextField`: walk the fallthrough chain
from `i`; on finding the node whose fallthrough successor is exactly `cur`,
rewrite that node's `next` to `cur`'s `next`; stop unchanged at the
terminal. -/
def linkPrevToNextFieldLoop (h : Heap) (cur : Nat) :
    Nat → Nat → Option Heap
  | 0, _ => none
  | fuel + 1, i =>
    match hget h i with
    | none => none
    | some code =>
      let nextCode := fallthrough code
      if nextCode = some cur then
        match hget h cur with
        | none => none
        | some fcode => some (hset h i { code with next := fcode.next })
      else
        match nextCode with
        | none => none
        | some j =>
          match hget h j with
          | none => none
          | some nc =>
            if nc.op = .opEnd then some h
            else linkPrevToNextFieldLoop h cur fuel j

/-- `linkPrevToNextField(prev, cur)`: set `prev.nextField` to
`cur.nextField`, then run the splice search loop from `prev`. -/
def linkPrevToNextField (h : Heap) (prev cur : Nat) (fuel : Nat) :
    Option Heap :=
  match hget h prev, hget h cur with
  | some p, some fcode =>
    linkPrevToNextFieldLoop
      (hset h prev { p with nextField := fcode.nextField }) cur fuel prev
  | _, _ => none

/-- `newSliceHeaderCode`: allocate three consecutive slots (head, element,
length) and build the slice header node; returns the node and the mutated
context. -/
def newSliceHeaderCode (ctx : encodeCompileContext) :
    opcode × encodeCompileContext :=
  let idx := opcodeOffset ctx.ptrIndex
  let ctx := ctx.incPtrIndex
  let elemIdx := opcodeOffset ctx.ptrIndex
  let ctx := ctx.incPtrIndex
  let length := opcodeOffset ctx.ptrIndex
  ({ op := .opSliceHead
     displayIdx := ctx.opcodeIndex
     idx := idx
     headIdx := idx
     elemIdx := elemIdx
     length := length
     indent := ctx.indent }, ctx)

/-- `newSliceElemCode`: the slice element node, inheriting the header's
head (`head.idx`), element and length slots. -/
def newSliceElemCode (ctx : encodeCompileContext) (head : opcode)
    (size : Nat) : opcode :=
  { op := .opSliceElem
    displayIdx := ctx.opcodeIndex
    idx := opcodeOffset ctx.ptrIndex
    headIdx := head.idx
    elemIdx := head.elemIdx
    length := head.length
    indent := ctx.indent
    size := size }

/-- `newArrayHeaderCode`: allocate two slots (head, element); the length is
the literal array length, not a register offset. -/
def newArrayHeaderCode (ctx : encodeCompileContext) (alen : Nat) :
    opcode × encodeCompileContext :=
  let idx := opcodeOffset ctx.ptrIndex
  let ctx := ctx.incPtrIndex
  let elemIdx := opcodeOffset ctx.ptrIndex
  ({ op := .opArrayHead
     displayIdx := ctx.opcodeIndex
     idx := idx
     headIdx := idx
     elemIdx := elemIdx
     indent := ctx.indent
     length := alen }, ctx)

/-- `newArrayElemCode`: the array element node, inheriting head/element
slots and carrying the literal length and element size. -/
def newArrayElemCode (ctx : encodeCompileContext) (head : opcode)
    (length : Nat) (size : Nat) : opcode :=
  { op := .opArrayElem
    displayIdx := ctx.opcodeIndex
    idx := opcodeOffset ctx.ptrIndex
    elemIdx := head.elemIdx
    headIdx := head.headIdx
    length := length
    size := size }

/-- `newMapHeaderCode`: allocate four consecutive slots (head/value
placeholder, element, length, iterator); the `withLoad` flag selects
`opMapHeadLoad` versus `opMapHead`. -/
def newMapHeaderCode (ctx : encodeCompileContext) (withLoad : Bool) :
    opcode × encodeCompileContext :=
  let op : opType := if withLoad then .opMapHeadLoad else .opMapHead
  let idx := opcodeOffset ctx.ptrIndex
  let ctx := ctx.incPtrIndex
  let elemIdx := opcodeOffset ctx.ptrIndex
  let ctx := ctx.incPtrIndex
  let length := opcodeOffset ctx.ptrIndex
  let ctx := ctx.incPtrIndex
  let mapIter := opcodeOffset ctx.ptrIndex
  ({ op := op
     typ := ctx.typ
     displayIdx := ctx.opcodeIndex
     idx := idx
     elemIdx := elemIdx
     length := length
     mapIter := mapIter
     indent := ctx.indent }, ctx)

/-- `newMapKeyCode`: the map key node, inheriting the header's element,
length and iterator slots. -/
def newMapKeyCode (ctx : encodeCompileContext) (head : opcode) : opcode :=
  { op := .opMapKey
    displayIdx := ctx.opcodeIndex
    idx := opcodeOffset ctx.ptrIndex
    elemIdx := head.elemIdx
    length := head.length
    mapIter := head.mapIter
    indent := ctx.indent }

/-- `newMapValueCode`: the map value node, inheriting the header's element,
length and iterator slots. -/
def newMapValueCode (ctx : encodeCompileContext) (head : opcode) : opcode :=
  { op := .opMapValue
    displayIdx := ctx.opcodeIndex
    idx := opcodeOffset ctx.ptrIndex
    elemIdx := head.elemIdx
    length := head.length
    mapIter := head.mapIter
    indent := ctx.indent }

/-- `newMapEndCode`: allocate the position slot and a fresh value slot; its
`next` is a freshly allocated terminal node. -/
def newMapEndCode (ctx : encodeCompileContext) (head : opcode) (h : Heap) :
    Heap × Nat × encodeCompileContext :=
  let mapPos := opcodeOffset ctx.ptrIndex
  let ctx := ctx.incPtrIndex
  let idx := opcodeOffset ctx.ptrIndex
  let (h1, e) := newEndOp ctx h
  let (h2, i) := alloc h1
    { op := .opMapEnd
      displayIdx := ctx.opcodeIndex
      idx := idx
      length := head.length
      mapPos := mapPos
      indent := ctx.indent
      next := some e }
  (h2, i, ctx)

/-- `newInterfaceCode`: one slot, root flag from the context, terminated by
a freshly allocated terminal node. -/
def newInterfaceCode (ctx : encodeCompileContext) (h : Heap) : Heap × Nat :=
  let (h1, e) := newEndOp ctx h
  alloc h1
    { op := .opInterface
      typ := ctx.typ
      displayIdx := ctx.opcodeIndex
      idx := opcodeOffset ctx.ptrIndex
      indent := ctx.indent
      root := ctx.root
      next := some e }

/-- `newRecursiveCode`: one slot, the subroutine reference `jmp`, terminated
by a freshly allocated terminal node. -/
def newRecursiveCode (ctx : encodeCompileContext) (jmp : Nat) (h : Heap) :
    Heap × Nat :=
  let (h1, e) := newEndOp ctx h
  alloc h1
    { op := .opStructFieldRecursive
      typ := ctx.typ
      displayIdx := ctx.opcodeIndex
      idx := opcodeOffset ctx.ptrIndex
      indent := ctx.indent
      next := some e
      jmp := some jmp }

/-- The identity-keyed memo table of `copy` (`codeMap map[uintptr]*opcode`):
an association list from original-node identity to clone identity. -/
abbrev codeMap := List (Nat × Nat)

/-- Lookup in the memo table of `copy`. -/
def codeMapLookup : codeMap → Nat → Option Nat
  | [], _ => none
  | (k, v) :: rest, a => if k = a then some v else codeMapLookup rest a

/-- The state threaded through `copy`: the arena (which grows by one fresh
node per not-yet-copied original) and the memo table. -/
abbrev CopyState := Heap × codeMap

/-- The placeholder allocated for a node at the start of its copy: all
scalar fields of the original, no outgoing links yet (they are filled in
after the six recursive copies), no `jmp` yet. -/
def placeholder (c : opcode) : opcode :=
  { c with
    mapKey := none, mapValue := none, elem := none, end_ := none
    nextField := none, next := none, jmp := none }

/-- `(c *opcode) copy(codeMap)`: the cycle-preserving clone.  A `nil`
reference copies to `nil`; an already-copied node returns its memoised
clone; otherwise a fresh clone with the original's scalar fields is
allocated and memoised *before* the six links are copied recursively, and
`jmp` is copied shallowly.  `none` is fuel exhaustion or a dangling
reference. -/
def copy : Nat → Option Nat → CopyState → Option (CopyState × Option Nat)
  | _, none, st => some (st, none)
  | 0, some _, _ => none
  | fuel + 1, some i, st =>
    match codeMapLookup st.2 i with
    | some j => some (st, some j)
    | none =>
      match hget st.1 i with
      | none => none
      | some c =>
        let j := st.1.length
        let st1 : CopyState := (st.1 ++ [placeholder c], (i, j) :: st.2)
        match copy fuel c.mapKey st1 with
        | none => none
        | some (st2, mk) =>
          match copy fuel c.mapValue st2 with
          | none => none
          | some (st3, mv) =>
            match copy fuel c.elem st3 with
            | none => none
            | some (st4, el) =>
              match copy fuel c.end_ st4 with
              | none => none
              | some (st5, en) =>
                match copy fuel c.nextField st5 with
                | none => none
                | some (st6, nf) =>
                  match copy fuel c.next st6 with
                  | none => none
                  | some (st7, nx) =>
                    some ((hset st7.1 j
                      { c with
                        mapKey := mk, mapValue := mv, elem := el
                        end_ := en, nextField := nf, next := nx
                        jmp := c.jmp }, st7.2), some j)

/-- `copyOpcode`: clone the graph rooted at `i` with an empty memo table. -/
def copyOpcode (h : Heap) (i : Nat) (fuel : Nat) :
    Option (CopyState × Option Nat) :=
  copy fuel (some i) (h, [])

/-- The list of node indices visited by a fallthrough walk from `i` up to
and including the terminal node. -/
def chainList (h : Heap) : Nat → Nat → Option (List Nat)
  | 0, _ => none
  | fuel + 1, i =>
    match hget h i with
    | none => none
    | some code =>
      if code.op = .opEnd then some [i]
      else
        match fallthrough code with
        | none => none
        | some j => (chainList h fuel j).map (i :: ·)

/-- The stride-unit value-slot offsets recorded by the `totalLength` walk,
in visit order (the walk stops early at `opInterfaceEnd` and
`opStructFieldRecursiveEnd`, still recording that node's offset). -/
def tlList (h : Heap) : Nat → Nat → Option (List Nat)
  | 0, _ => none
  | fuel + 1, i =>
    match hget h i with
    | none => none
    | some code =>
      if code.op = .opEnd then some []
      else
        let v := code.idx / uintptrSize
        if code.op = .opInterfaceEnd ∨ code.op = .opStructFieldRecursiveEnd
        then some [v]
        else
          match fallthrough code with
          | none => none
          | some j => (tlList h fuel j).map (v :: ·)

/-- The specification-side register-file size: the maximum slot offset (in
stride units) seen over the `totalLength` walk, plus 2. -/
def registerFileSizeSpec (h : Heap) (i : Nat) (fuel : Nat) : Option Nat :=
  (tlList h fuel i).map (fun l => l.foldl max 0 + 2)

/-- A graph consisting of just the node returned by `newSliceHeaderCode`
on a fresh context: the constructor wires no links at all, so its
fallthrough successor is `nil`. -/
def sliceHeaderGraph : Heap := [(newSliceHeaderCode {}).1]

/-- A two-node slice-header graph used as a concrete witness: a slice
header at slots 1..3 followed by the terminal. -/
def c2Graph : Heap :=
  [{ op := .opSliceHead, idx := 8, headIdx := 8, elemIdx := 16, length := 24,
     next := some 1 }, { op := .opEnd, idx := 32 }]

/-- Bounds under which the word-wrapping decrements of `decOpcodeIndex`
behave as exact subtraction: every populated slot offset is at least one
stride and below the word modulus (true of all stride-aligned graphs). -/
def decBounds (c : opcode) : Prop :=
  uintptrSize ≤ c.idx ∧ c.idx < uintptrMod ∧
  (0 < c.headIdx → uintptrSize ≤ c.headIdx ∧ c.headIdx < uintptrMod) ∧
  (0 < c.elemIdx → uintptrSize ≤ c.elemIdx ∧ c.elemIdx < uintptrMod) ∧
  (0 < c.mapIter → uintptrSize ≤ c.mapIter ∧ c.mapIter < uintptrMod) ∧
  (0 < c.length → uintptrSize ≤ c.length ∧ c.length < uintptrMod)

/-- A map-end node (carrying a nonzero `mapPos` slot offset) followed by
the terminal: the shape of the sub-graph `newMapEndCode` builds. -/
def c1Graph : Heap :=
  [{ op := .opMapEnd, idx := 16, mapPos := 8, next := some 1 },
   { op := .opEnd, idx := 24 }]

/-- A record chain where the node whose fallthrough successor is the
skipped field is a slice element (an `end`-fallthrough kind): field `a`,
a slice element falling through (via `end`) to field `b`, then the
terminal. -/
def c3Graph : Heap :=
  [{ op := .opStructField, next := some 1, nextField := some 2 },
   { op := .opSliceElem, end_ := some 2 },
   { op := .opStructField, next := some 3 },
   { op := .opEnd }]

/-- A three-node record chain `a -> b -> terminal` of plain field nodes,
used to splice field `b` out. -/
def c3wGraph : Heap :=
  [{ op := .opStructField, next := some 1, nextField := some 1 },
   { op := .opStructField, next := some 2, nextField := some 2 },
   { op := .opEnd }]

/-- A chain `a -> terminal` plus an off-chain field node `b` that is
nobody's fallthrough successor. -/
def c10Graph : Heap :=
  [{ op := .opStructField, next := some 1 },
   { op := .opEnd },
   { op := .opStructField, nextField := some 1 }]

/-- One original link and its clone-side counterpart, mapped through the
memo table. -/
def linkMapped (m : codeMap) (x y : Option Nat) : Prop :=
  y = x.bind (fun a => codeMapLookup m a) ∧
  ∀ a, x = some a → (codeMapLookup m a).isSome = true

/-- The clone `d` of `c` is finished with respect to memo `m`: identical
scalar fields, all six links mapped through `m`, and a shallow-copied
`jmp`. -/
def doneNode (m : codeMap) (c d : opcode) : Prop :=
  d = { c with mapKey := d.mapKey, mapValue := d.mapValue, elem := d.elem,
               end_ := d.end_, nextField := d.nextField, next := d.next,
               jmp := d.jmp } ∧
  linkMapped m c.mapKey d.mapKey ∧ linkMapped m c.mapValue d.mapValue ∧
  linkMapped m c.elem d.elem ∧ linkMapped m c.end_ d.end_ ∧
  linkMapped m c.nextField d.nextField ∧ linkMapped m c.next d.next ∧
  d.jmp = c.jmp

/-- All outgoing links of the nodes in the first `n0` arena cells stay
inside those cells: the original graph is closed. -/
def closedRegion (n0 : Nat) (h : Heap) : Prop :=
  ∀ k, k < n0 → ∀ c, hget h k = some c →
    (∀ a, c.mapKey = some a → a < n0) ∧ (∀ a, c.mapValue = some a → a < n0) ∧
    (∀ a, c.elem = some a → a < n0) ∧ (∀ a, c.end_ = some a → a < n0) ∧
    (∀ a, c.nextField = some a → a < n0) ∧ (∀ a, c.next = some a → a < n0)

/-- One memo entry is sane: it maps an original node (index `< n0`) to a
clone cell holding either the placeholder or a finished clone. -/
def okEntry (n0 : Nat) (st : CopyState) (a b : Nat) : Prop :=
  a < n0 ∧ n0 ≤ b ∧ b < st.1.length ∧
  ∃ c d, hget st.1 a = some c ∧ hget st.1 b = some d ∧
    (d = placeholder c ∨ doneNode st.2 c d)

/-- The invariant `copy` maintains on its threaded state. -/
def InvSt (n0 : Nat) (st : CopyState) : Prop :=
  n0 ≤ st.1.length ∧ closedRegion n0 st.1 ∧
  (st.2.map Prod.fst).Nodup ∧ (st.2.map Prod.snd).Nodup ∧
  ∀ q ∈ st.2, okEntry n0 st q.1 q.2

/-- A finished memo entry, as seen in a given state. -/
def doneEntry (st : CopyState) (a b : Nat) : Prop :=
  ∃ c d, hget st.1 a = some c ∧ hget st.1 b = some d ∧ doneNode st.2 c d

/-- What one `copy` call guarantees about its state transition: the arena
only grows, existing cells are untouched, and the memo gains only fresh,
finished entries pointing at newly allocated cells. -/
def CopyExt (st st' : CopyState) : Prop :=
  st.1.length ≤ st'.1.length ∧
  (∀ k, k < st.1.length → hget st'.1 k = hget st.1 k) ∧
  ∃ mnew, st'.2 = mnew ++ st.2 ∧
    ∀ q ∈ mnew, codeMapLookup st.2 q.1 = none ∧ st.1.length ≤ q.2 ∧
      doneEntry st' q.1 q.2

/-- The full postcondition of one `copy` call. -/
def MasterConcl (n0 : Nat) (st : CopyState) (i? : Option Nat)
    (st' : CopyState) (r : Option Nat) : Prop :=
  CopyExt st st' ∧ InvSt n0 st' ∧
  (i? = none → st' = st ∧ r = none) ∧
  (∀ a, i? = some a → r = codeMapLookup st'.2 a ∧
    (codeMapLookup st'.2 a).isSome = true)

/-- The master specification of `copy`, quantified per fuel level. -/
def MasterStmt (n0 fuel : Nat) : Prop :=
  ∀ i? st st' r, InvSt n0 st → (∀ a, i? = some a → a < n0) →
    copy fuel i? st = some (st', r) → MasterConcl n0 st i? st' r

/-- A selector for one of the six outgoing links of a node. -/
inductive linkSel where
  | selMapKey
  | selMapValue
  | selElem
  | selEnd
  | selNextField
  | selNext
deriving DecidableEq, Repr

/-- The link of a node denoted by a selector. -/
def getLink (c : opcode) : linkSel → Option Nat
  | .selMapKey => c.mapKey
  | .selMapValue => c.mapValue
  | .selElem => c.elem
  | .selEnd => c.end_
  | .selNextField => c.nextField
  | .selNext => c.next

/-- Follow a path of link selectors through the graph. -/
def follow (h : Heap) : List linkSel → Nat → Option Nat
  | [], i => some i
  | s :: rest, i =>
    match hget h i with
    | none => none
    | some c =>
      match getLink c s with
      | none => none
      | some j => follow h rest j

/-- A two-node graph with sharing: the head's `next` and `end` both point
at the same terminal node, and the head carries a subroutine reference. -/
def c4Graph : Heap :=
  [{ op := .opStructFieldRecursive, idx := 8, next := some 1, end_ := some 1,
     jmp := some 7 },
   { op := .opEnd, idx := 16 }]

/-! ### Arena lemmas -/

theorem hget_lt_length {h : Heap} {i : Nat} {c : opcode}
    (hc : hget h i = some c) : i < h.length := by
  induction h generalizing i with
  | nil => simp [hget] at hc
  | cons a t ih =>
    cases i with
    | zero => simp
    | succ n =>
      have := ih (i := n) hc
      simp only [List.length_cons]
      omega

theorem hget_append_left {h : Heap} (h2 : Heap) {i : Nat}
    (hi : i < h.length) : hget (h ++ h2) i = hget h i := by
  induction h generalizing i with
  | nil => simp at hi
  | cons a t ih =>
    cases i with
    | zero => rfl
    | succ n =>
      simp only [List.cons_append]
      show hget (t ++ h2) n = hget t n
      exact ih (by simp only [List.length_cons] at hi; omega)

theorem hget_append_right (h h2 : Heap) (k : Nat) :
    hget (h ++ h2) (h.length + k) = hget h2 k := by
  induction h with
  | nil => simp [hget]
  | cons a t ih =>
    simp only [List.cons_append, List.length_cons]
    have he : t.length + 1 + k = (t.length + k) + 1 := by omega
    rw [he]
    show hget (t ++ h2) (t.length + k) = hget h2 k
    exact ih

theorem hset_length (h : Heap) (i : Nat) (c : opcode) :
    (hset h i c).length = h.length := by
  induction h generalizing i with
  | nil => rfl
  | cons a t ih =>
    cases i with
    | zero => rfl
    | succ n => simp only [hset, List.length_cons, ih]

theorem hget_hset_self {h : Heap} {i : Nat} (c : opcode)
    (hi : i < h.length) : hget (hset h i c) i = some c := by
  induction h generalizing i with
  | nil => simp at hi
  | cons a t ih =>
    cases i with
    | zero => rfl
    | succ n =>
      show hget (hset t n c) n = some c
      exact ih (by simp only [List.length_cons] at hi; omega)

theorem hget_hset_ne {h : Heap} {i : Nat} (c : opcode) {j : Nat}
    (hne : j ≠ i) : hget (hset h i c) j = hget h j := by
  induction h generalizing i j with
  | nil => rfl
  | cons a t ih =>
    cases i with
    | zero =>
      cases j with
      | zero => exact absurd rfl hne
      | succ m => rfl
    | succ n =>
      cases j with
      | zero => rfl
      | succ m =>
        show hget (hset t n c) m = hget t m
        exact ih (fun hh => hne (by omega))

/-! ### Fallthrough chains -/

/-- The shape of a node that the fallthrough walks inspect: its operation
kind and its `end`/`next` links. -/
def shapeProj (c : opcode) : opType × Option Nat × Option Nat :=
  (c.op, c.end_, c.next)

theorem fallthrough_shape {c c' : opcode}
    (hs : shapeProj c = shapeProj c') : fallthrough c = fallthrough c' := by
  have h1 : c.op = c'.op := congrArg Prod.fst hs
  have h2 : c.end_ = c'.end_ := congrArg (fun p => p.2.1) hs
  have h3 : c.next = c'.next := congrArg (fun p => p.2.2) hs
  unfold fallthrough
  rw [h1, h2, h3]

/-- Two heaps agree on the data the fallthrough walks inspect. -/
def sameShape (h h' : Heap) : Prop :=
  ∀ k, (hget h' k).map shapeProj = (hget h k).map shapeProj

/-- `IsChain h i l`: the fallthrough walk from `i` visits exactly the nodes
`l` and ends at the terminal node. -/
inductive IsChain (h : Heap) : Nat → List Nat → Prop where
  | done {i : Nat} {c : opcode} :
      hget h i = some c → c.op = .opEnd → IsChain h i [i]
  | step {i j : Nat} {c : opcode} {l : List Nat} :
      hget h i = some c → c.op ≠ .opEnd → fallthrough c = some j →
      IsChain h j l → IsChain h i (i :: l)

/-- `Walks h i l k`: a fallthrough walk from `i` through the non-terminal
nodes `l`, arriving at `k`. -/
inductive Walks (h : Heap) : Nat → List Nat → Nat → Prop where
  | nil {i : Nat} : Walks h i [] i
  | cons {i j k : Nat} {c : opcode} {l : List Nat} :
      hget h i = some c → c.op ≠ .opEnd → fallthrough c = some j →
      Walks h j l k → Walks h i (i :: l) k

theorem isChain_cons {h : Heap} {i : Nat} {l : List Nat}
    (hc : IsChain h i l) : ∃ t, l = i :: t := by
  cases hc with
  | done _ _ => exact ⟨[], rfl⟩
  | step _ _ _ _ => exact ⟨_, rfl⟩

theorem isChain_ne_nil {h : Heap} {i : Nat} {l : List Nat}
    (hc : IsChain h i l) : l ≠ [] := by
  obtain ⟨t, ht⟩ := isChain_cons hc
  simp [ht]

theorem chainList_isChain {h : Heap} {fuel i : Nat} {l : List Nat}
    (hc : chainList h fuel i = some l) : IsChain h i l := by
  induction fuel generalizing i l with
  | zero => simp [chainList] at hc
  | succ fuel ih =>
    cases hg : hget h i with
    | none => simp only [chainList, hg] at hc; exact absurd hc (by simp)
    | some c =>
      simp only [chainList, hg] at hc
      by_cases hop : c.op = .opEnd
      · rw [if_pos hop] at hc
        cases hc
        exact IsChain.done hg hop
      · rw [if_neg hop] at hc
        cases hf : fallthrough c with
        | none => simp only [hf] at hc; exact absurd hc (by simp)
        | some j =>
          simp only [hf] at hc
          cases hrec : chainList h fuel j with
          | none => rw [hrec] at hc; exact absurd hc (by simp)
          | some l' =>
            rw [hrec] at hc
            have hc' : i :: l' = l := by simpa using hc
            cases hc'
            exact IsChain.step hg hop hf (ih hrec)

theorem isChain_chainList {h : Heap} {i : Nat} {l : List Nat}
    (hc : IsChain h i l) :
    ∀ fuel, l.length ≤ fuel → chainList h fuel i = some l := by
  induction hc with
  | done hg hop =>
    intro fuel hf
    cases fuel with
    | zero => simp at hf
    | succ fuel => simp only [chainList, hg, if_pos hop]
  | step hg hop hf _ ih =>
    intro fuel hfl
    cases fuel with
    | zero => simp at hfl
    | succ fuel =>
      simp only [chainList, hg, if_neg hop, hf,
        ih fuel (by simp only [List.length_cons] at hfl; omega)]
      rfl

theorem chainList_fuel {h : Heap} {fuel i : Nat} {l : List Nat}
    (hc : chainList h fuel i = some l) : l.length ≤ fuel := by
  induction fuel generalizing i l with
  | zero => simp [chainList] at hc
  | succ fuel ih =>
    cases hg : hget h i with
    | none => simp only [chainList, hg] at hc; exact absurd hc (by simp)
    | some c =>
      simp only [chainList, hg] at hc
      by_cases hop : c.op = .opEnd
      · rw [if_pos hop] at hc
        cases hc
        simp
      · rw [if_neg hop] at hc
        cases hf : fallthrough c with
        | none => simp only [hf] at hc; exact absurd hc (by simp)
        | some j =>
          simp only [hf] at hc
          cases hrec : chainList h fuel j with
          | none => rw [hrec] at hc; exact absurd hc (by simp)
          | some l' =>
            rw [hrec] at hc
            have hc' : i :: l' = l := by simpa using hc
            cases hc'
            have := ih hrec
            simp only [List.length_cons]
            omega

theorem isChain_inv {h : Heap} {i : Nat} {l : List Nat}
    (hc : IsChain h i l) :
    (∃ c, hget h i = some c ∧ c.op = .opEnd ∧ l = [i]) ∨
    (∃ c j t, hget h i = some c ∧ c.op ≠ .opEnd ∧ fallthrough c = some j ∧
      IsChain h j t ∧ l = i :: t) := by
  cases hc with
  | done hg hop => exact Or.inl ⟨_, hg, hop, rfl⟩
  | step hg hop hf ht => exact Or.inr ⟨_, _, _, hg, hop, hf, ht, rfl⟩

theorem walks_inv {h : Heap} {i k : Nat} {l : List Nat}
    (hw : Walks h i l k) :
    (l = [] ∧ i = k) ∨
    (∃ c j t, hget h i = some c ∧ c.op ≠ .opEnd ∧ fallthrough c = some j ∧
      Walks h j t k ∧ l = i :: t) := by
  cases hw with
  | nil => exact Or.inl ⟨rfl, rfl⟩
  | cons hg hop hf ht => exact Or.inr ⟨_, _, _, hg, hop, hf, ht, rfl⟩

theorem isChain_transfer {h h' : Heap} {i : Nat} {l : List Nat}
    (hc : IsChain h i l) (hagree : ∀ x ∈ l, hget h' x = hget h x) :
    IsChain h' i l := by
  induction hc with
  | @done i c hg hop =>
    have hg' : hget h' i = some c := by rw [hagree i (by simp), hg]
    exact IsChain.done hg' hop
  | @step i j c l hg hop hf htail ih =>
    have hg' : hget h' i = some c := by rw [hagree i (by simp), hg]
    exact IsChain.step hg' hop hf (ih (fun x hx => hagree x (by simp [hx])))

theorem walks_transfer {h h' : Heap} {i k : Nat} {l : List Nat}
    (hw : Walks h i l k) (hagree : ∀ x ∈ l, hget h' x = hget h x) :
    Walks h' i l k := by
  induction hw with
  | nil => exact Walks.nil
  | @cons i j k c l hg hop hf htail ih =>
    have hg' : hget h' i = some c := by rw [hagree i (by simp), hg]
    exact Walks.cons hg' hop hf (ih (fun x hx => hagree x (by simp [hx])))

theorem isChain_sameShape {h h' : Heap} (hs : sameShape h h') {i : Nat}
    {l : List Nat} (hc : IsChain h i l) : IsChain h' i l := by
  induction hc with
  | @done i c hg hop =>
    have hsi := hs i
    rw [hg] at hsi
    cases hg' : hget h' i with
    | none => rw [hg'] at hsi; exact absurd hsi (by simp)
    | some c' =>
      rw [hg'] at hsi
      simp only [Option.map_some', Option.some.injEq] at hsi
      have hopeq : c'.op = c.op := congrArg Prod.fst hsi
      exact IsChain.done hg' (by rw [hopeq, hop])
  | @step i j c l hg hop hf htail ih =>
    have hsi := hs i
    rw [hg] at hsi
    cases hg' : hget h' i with
    | none => rw [hg'] at hsi; exact absurd hsi (by simp)
    | some c' =>
      rw [hg'] at hsi
      simp only [Option.map_some', Option.some.injEq] at hsi
      have hopeq : c'.op = c.op := congrArg Prod.fst hsi
      exact IsChain.step hg' (by rw [hopeq]; exact hop)
        (by rw [fallthrough_shape hsi]; exact hf) ih

theorem walks_isChain {h : Heap} {i k : Nat} {l1 l2 : List Nat}
    (hw : Walks h i l1 k) (hc : IsChain h k l2) :
    IsChain h i (l1 ++ l2) := by
  induction hw with
  | nil => exact hc
  | @cons i j k c l hg hop hf htail ih =>
    rw [List.cons_append]
    exact IsChain.step hg hop hf (ih hc)

theorem walks_append {h : Heap} {i k m : Nat} {l1 l2 : List Nat}
    (h1 : Walks h i l1 k) (h2 : Walks h k l2 m) :
    Walks h i (l1 ++ l2) m := by
  induction h1 with
  | nil => exact h2
  | @cons i j k c l hg hop hf htail ih =>
    rw [List.cons_append]
    exact Walks.cons hg hop hf (ih h2)

theorem isChain_decomp : ∀ {l1 : List Nat} {h : Heap} {i j : Nat}
    {l2 : List Nat}, IsChain h i (l1 ++ j :: l2) →
    Walks h i l1 j ∧ IsChain h j (j :: l2) := by
  intro l1
  induction l1 with
  | nil =>
    intro h i j l2 hc
    rw [List.nil_append] at hc
    obtain ⟨t, ht⟩ := isChain_cons hc
    have hij : j = i := (List.cons.injEq _ _ _ _).mp ht |>.1
    subst hij
    exact ⟨Walks.nil, hc⟩
  | cons x t ih =>
    intro h i j l2 hc
    rw [List.cons_append] at hc
    rcases isChain_inv hc with ⟨c, hg, hop, hl⟩ | ⟨c, j', t', hg, hop, hf, ht', hl⟩
    · exact absurd (congrArg List.length hl) (by simp)
    · have hx : x = i ∧ t ++ j :: l2 = t' := by
        have := (List.cons.injEq _ _ _ _).mp hl.symm
        exact ⟨this.1.symm, this.2.symm⟩
      obtain ⟨hx1, hx2⟩ := hx
      subst hx1
      rw [← hx2] at ht'
      obtain ⟨hw, hcj⟩ := ih ht'
      exact ⟨Walks.cons hg hop hf hw, hcj⟩

theorem isChain_mid_not_end {h : Heap} {i : Nat} {l : List Nat}
    (hc : IsChain h i l) :
    ∀ k ∈ l.dropLast, ∃ c, hget h k = some c ∧ c.op ≠ .opEnd := by
  induction hc with
  | done hg hop => simp
  | @step i j c l hg hop hf htail ih =>
    intro k hk
    obtain ⟨t, ht⟩ := isChain_cons htail
    subst ht
    rw [List.dropLast_cons₂] at hk
    rcases List.mem_cons.mp hk with h1 | h2
    · subst h1; exact ⟨_, hg, hop⟩
    · exact ih k h2

theorem isChain_last_end {h : Heap} {i : Nat} {l : List Nat}
    (hc : IsChain h i l) :
    ∃ e c, l.getLast? = some e ∧ hget h e = some c ∧ c.op = .opEnd := by
  induction hc with
  | done hg hop => exact ⟨_, _, rfl, hg, hop⟩
  | @step i j c l hg hop hf htail ih =>
    obtain ⟨e, ce, he, hgc, hoc⟩ := ih
    obtain ⟨t, ht⟩ := isChain_cons htail
    subst ht
    exact ⟨e, ce, by rw [List.getLast?_cons_cons]; exact he, hgc, hoc⟩

/-! ### Claims C6, C7, C8 -/

/-- Claim C6, counterexample: a map key node (and a map value node) built
from a map header does NOT carry the header's head slot offset.  Here the
header's head slot (`idx`) is offset 8, but the key node's `headIdx` is 0
and its own `idx` is a fresh slot, 40. -/
theorem C6_counterexample :
    (newMapKeyCode { ptrIndex := 5 }
        (newMapHeaderCode { ptrIndex := 1 } false).1).headIdx ≠
      (newMapHeaderCode { ptrIndex := 1 } false).1.idx ∧
    (newMapKeyCode { ptrIndex := 5 }
        (newMapHeaderCode { ptrIndex := 1 } false).1).idx ≠
      (newMapHeaderCode { ptrIndex := 1 } false).1.idx ∧
    (newMapValueCode { ptrIndex := 5 }
        (newMapHeaderCode { ptrIndex := 1 } false).1).headIdx ≠
      (newMapHeaderCode { ptrIndex := 1 } false).1.idx := by
  decide

/-- Claim C6, amended: a slice element node mirrors the header's head
(`head.idx = head.headIdx`), element and length slots; an array element
node mirrors the header's head and element slots; a map key node and a map
value node mirror the header's element, length and iterator slots, while
the head slot is not mirrored (their `headIdx` remains 0). -/
theorem C6_amended (ctx ctx2 : encodeCompileContext) (size alen alen2 : Nat)
    (withLoad : Bool) :
    ((newSliceElemCode ctx2 (newSliceHeaderCode ctx).1 size).headIdx =
        (newSliceHeaderCode ctx).1.headIdx ∧
      (newSliceElemCode ctx2 (newSliceHeaderCode ctx).1 size).headIdx =
        (newSliceHeaderCode ctx).1.idx ∧
      (newSliceElemCode ctx2 (newSliceHeaderCode ctx).1 size).elemIdx =
        (newSliceHeaderCode ctx).1.elemIdx ∧
      (newSliceElemCode ctx2 (newSliceHeaderCode ctx).1 size).length =
        (newSliceHeaderCode ctx).1.length) ∧
    ((newArrayElemCode ctx2 (newArrayHeaderCode ctx alen).1 alen2 size).headIdx =
        (newArrayHeaderCode ctx alen).1.headIdx ∧
      (newArrayElemCode ctx2 (newArrayHeaderCode ctx alen).1 alen2 size).elemIdx =
        (newArrayHeaderCode ctx alen).1.elemIdx) ∧
    ((newMapKeyCode ctx2 (newMapHeaderCode ctx withLoad).1).elemIdx =
        (newMapHeaderCode ctx withLoad).1.elemIdx ∧
      (newMapKeyCode ctx2 (newMapHeaderCode ctx withLoad).1).length =
        (newMapHeaderCode ctx withLoad).1.length ∧
      (newMapKeyCode ctx2 (newMapHeaderCode ctx withLoad).1).mapIter =
        (newMapHeaderCode ctx withLoad).1.mapIter ∧
      (newMapKeyCode ctx2 (newMapHeaderCode ctx withLoad).1).headIdx = 0) ∧
    ((newMapValueCode ctx2 (newMapHeaderCode ctx withLoad).1).elemIdx =
        (newMapHeaderCode ctx withLoad).1.elemIdx ∧
      (newMapValueCode ctx2 (newMapHeaderCode ctx withLoad).1).length =
        (newMapHeaderCode ctx withLoad).1.length ∧
      (newMapValueCode ctx2 (newMapHeaderCode ctx withLoad).1).mapIter =
        (newMapHeaderCode ctx withLoad).1.mapIter ∧
      (newMapValueCode ctx2 (newMapHeaderCode ctx withLoad).1).headIdx = 0) := by
  cases withLoad <;>
    exact ⟨⟨rfl, rfl, rfl, rfl⟩, ⟨rfl, rfl⟩, ⟨rfl, rfl, rfl, rfl⟩,
      rfl, rfl, rfl, rfl⟩

/-- Claim C7: `newMapHeaderCode` allocates four consecutive slots (head,
element, length, iterator) at stride offsets starting at the context's
next free slot, and the `withLoad := true` variant differs from the
`withLoad := false` variant only in the operation kind; the mutated
context is identical for both variants. -/
theorem C7_mapHeader (ctx : encodeCompileContext) :
    (newMapHeaderCode ctx true).1 =
      { (newMapHeaderCode ctx false).1 with op := .opMapHeadLoad } ∧
    (newMapHeaderCode ctx true).2 = (newMapHeaderCode ctx false).2 ∧
    ∀ b : Bool,
      (newMapHeaderCode ctx b).1.idx = opcodeOffset ctx.ptrIndex ∧
      (newMapHeaderCode ctx b).1.elemIdx = opcodeOffset (ctx.ptrIndex + 1) ∧
      (newMapHeaderCode ctx b).1.length = opcodeOffset (ctx.ptrIndex + 2) ∧
      (newMapHeaderCode ctx b).1.mapIter = opcodeOffset (ctx.ptrIndex + 3) ∧
      (newMapHeaderCode ctx b).2.ptrIndex = ctx.ptrIndex + 3 := by
  refine ⟨rfl, rfl, ?_⟩
  intro b
  cases b <;> exact ⟨rfl, rfl, rfl, rfl, rfl⟩

theorem hget_two_append_right (h : Heap) (a b : opcode) :
    hget ((h ++ [a]) ++ [b]) (h.length + 1) = some b := by
  have he : h.length + 1 = (h ++ [a]).length + 0 := by simp
  rw [he, hget_append_right]
  rfl

theorem hget_two_append_left (h : Heap) (a b : opcode) :
    hget ((h ++ [a]) ++ [b]) h.length = some a := by
  rw [hget_append_left (h := h ++ [a]) [b] (by simp)]
  have he : h.length = h.length + 0 := rfl
  rw [he, hget_append_right]
  rfl

theorem fallthrough_default {c : opcode}
    (h1 : c.op.codeType ≠ .codeArrayElem) (h2 : c.op.codeType ≠ .codeSliceElem)
    (h3 : c.op.codeType ≠ .codeMapKey) : fallthrough c = c.next := by
  unfold fallthrough
  cases hk : c.op.codeType <;> first | rfl | exact absurd hk (by assumption)

theorem fallthrough_elem {c : opcode}
    (hk : c.op.codeType = .codeArrayElem ∨ c.op.codeType = .codeSliceElem ∨
      c.op.codeType = .codeMapKey) : fallthrough c = c.end_ := by
  unfold fallthrough
  rcases hk with hk | hk | hk <;> rw [hk]

/-- A two-node graph `... ++ [terminal, main]` where the main node falls
through to the terminal: its fallthrough chain is the two nodes. -/
theorem chainList_two (h : Heap) (a b : opcode) (ha : a.op = .opEnd)
    (hb : b.op ≠ .opEnd) (hf : fallthrough b = some h.length) :
    chainList ((h ++ [a]) ++ [b]) 2 (h.length + 1) =
      some [h.length + 1, h.length] := by
  have h1 := hget_two_append_right h a b
  have h2 := hget_two_append_left h a b
  simp only [chainList, h1, h2, if_neg hb, hf, if_pos ha]
  rfl

/-- Claim C8, counterexample: the graph produced by the slice header
constructor has no fallthrough successor at all (`next` and `end` are both
nil), so following fallthrough edges from its head never reaches the
terminal node: the walk fails for every amount of fuel. -/
theorem C8_counterexample :
    ¬ ∃ fuel l, chainList sliceHeaderGraph fuel 0 = some l := by
  rintro ⟨fuel, l, hc⟩
  cases fuel with
  | zero => simp [chainList] at hc
  | succ fuel =>
    simp [chainList, sliceHeaderGraph, newSliceHeaderCode, hget,
      fallthrough, opType.codeType, encodeCompileContext.incPtrIndex] at hc

/-- Claim C8, amended: the constructors that wire a terminal node
(`newOpCode`, `newInterfaceCode`, `newRecursiveCode`, `newMapEndCode`)
produce graphs whose fallthrough chain from the head reaches the terminal
node (kind `opEnd`) in a finite number of steps — here in one step; the
header/element/key/value constructors return isolated, linkless nodes, so
the property holds only for terminal-wiring constructors. -/
theorem C8_amended (ctx : encodeCompileContext) (op : opType) (jmp : Nat)
    (head : opcode) (h : Heap) (hop : op ≠ .opEnd)
    (hk1 : op.codeType ≠ .codeArrayElem) (hk2 : op.codeType ≠ .codeSliceElem)
    (hk3 : op.codeType ≠ .codeMapKey) :
    chainList (newOpCode ctx op h).1 2 (newOpCode ctx op h).2 =
      some [h.length + 1, h.length] ∧
    chainList (newInterfaceCode ctx h).1 2 (newInterfaceCode ctx h).2 =
      some [h.length + 1, h.length] ∧
    chainList (newRecursiveCode ctx jmp h).1 2 (newRecursiveCode ctx jmp h).2 =
      some [h.length + 1, h.length] ∧
    chainList (newMapEndCode ctx head h).1 2 (newMapEndCode ctx head h).2.1 =
      some [h.length + 1, h.length] ∧
    (hget (newInterfaceCode ctx h).1 h.length).map opcode.op =
      some .opEnd := by
  refine ⟨?_, ?_, ?_, ?_, ?_⟩
  · simp only [newOpCode, newEndOp, newOpCodeWithNext, alloc,
      List.length_append, List.length_cons, List.length_nil]
    refine chainList_two h _ _ rfl hop ?_
    rw [fallthrough_default hk1 hk2 hk3]
  · simp only [newInterfaceCode, newEndOp, newOpCodeWithNext, alloc,
      List.length_append, List.length_cons, List.length_nil]
    exact chainList_two h _ _ rfl (fun hh => opType.noConfusion hh) rfl
  · simp only [newRecursiveCode, newEndOp, newOpCodeWithNext, alloc,
      List.length_append, List.length_cons, List.length_nil]
    exact chainList_two h _ _ rfl (fun hh => opType.noConfusion hh) rfl
  · simp only [newMapEndCode, newEndOp, newOpCodeWithNext, alloc,
      List.length_append, List.length_cons, List.length_nil]
    exact chainList_two h _ _ rfl (fun hh => opType.noConfusion hh) rfl
  · simp only [newInterfaceCode, newEndOp, newOpCodeWithNext, alloc,
      List.length_append, List.length_cons, List.length_nil]
    rw [hget_two_append_left]
    rfl

/-- Claim C8, witness: the amended theorem applied to a concrete context,
operation kind and heap. -/
theorem C8_witness :
    chainList (newOpCode {} .opInterface []).1 2 (newOpCode {} .opInterface []).2 =
      some [1, 0] :=
  (C8_amended {} .opInterface 0 {op := .opEnd} [] (by decide) (by decide)
    (by decide) (by decide)).1

/-! ### Claim C2 -/

theorem totalLengthAux_tlList (h : Heap) :
    ∀ fuel i acc, totalLengthAux h fuel i acc =
      (tlList h fuel i).map (fun l => l.getLastD acc + 2) := by
  intro fuel
  induction fuel with
  | zero => intro i acc; rfl
  | succ fuel ih =>
    intro i acc
    cases hg : hget h i with
    | none => simp only [totalLengthAux, tlList, hg]; rfl
    | some c =>
      simp only [totalLengthAux, tlList, hg]
      by_cases hop : c.op = .opEnd
      · rw [if_pos hop, if_pos hop]; rfl
      · rw [if_neg hop, if_neg hop]
        by_cases hsp : c.op = .opInterfaceEnd ∨ c.op = .opStructFieldRecursiveEnd
        · rw [if_pos hsp, if_pos hsp]; rfl
        · rw [if_neg hsp, if_neg hsp]
          cases hf : fallthrough c with
          | none => rfl
          | some j =>
            dsimp only
            rw [ih j (c.idx / uintptrSize)]
            cases tlList h fuel j with
            | none => rfl
            | some l =>
              simp only [Option.map_some', List.getLastD_cons]

theorem foldl_max_chain :
    ∀ (l : List Nat) (a : Nat), List.Chain (· ≤ ·) a l →
      l.foldl max a = l.getLastD a := by
  intro l
  induction l with
  | nil => intro a _; rfl
  | cons b t ih =>
    intro a hc
    rw [List.chain_cons] at hc
    simp only [List.foldl_cons, List.getLastD_cons]
    rw [Nat.max_eq_right hc.1]
    exact ih b hc.2

theorem getLastD_zero_foldl {l : List Nat} (hs : List.Chain' (· ≤ ·) l) :
    l.foldl max 0 = l.getLastD 0 := by
  cases l with
  | nil => rfl
  | cons x t =>
    have hc : List.Chain (· ≤ ·) x t := hs
    simp only [List.foldl_cons, List.getLastD_cons]
    rw [Nat.max_eq_right (Nat.zero_le x)]
    exact foldl_max_chain t x hc

/-- Claim C2: for a well-formed graph — the value-slot offsets recorded
along the walk are non-decreasing, per the spec's monotone-allocation
invariant — `totalLength` equals the maximum slot offset (in stride units)
seen over the walk following the fallthrough rule, plus 2, the walk
stopping at the terminal and early at `opInterfaceEnd` /
`opStructFieldRecursiveEnd` (`registerFileSizeSpec`). -/
theorem C2_totalLength_max {h : Heap} {fuel i : Nat} {lt : List Nat}
    (hl : tlList h fuel i = some lt) (hs : List.Chain' (· ≤ ·) lt) :
    totalLength h i fuel = registerFileSizeSpec h i fuel ∧
    totalLength h i fuel = some (lt.foldl max 0 + 2) := by
  have ha := totalLengthAux_tlList h fuel i 0
  unfold totalLength registerFileSizeSpec
  rw [hl] at ha ⊢
  rw [ha]
  simp only [Option.map_some']
  rw [getLastD_zero_foldl hs]
  exact ⟨rfl, rfl⟩

/-- Claim C2, witness: the theorem applied to a concrete slice-header
graph; its walk records offsets `[1]`, and the register file size is 3. -/
theorem C2_witness :
    totalLength c2Graph 0 2 = registerFileSizeSpec c2Graph 0 2 ∧
    totalLength c2Graph 0 2 = some 3 := by
  have hmain := @C2_totalLength_max c2Graph 2 0 [1] (by decide)
    (List.chain'_singleton _)
  exact ⟨hmain.1, hmain.2⟩

/-! ### Claim C1 -/

theorem subStride_eq {x : Nat} (h8 : uintptrSize ≤ x) (hlt : x < uintptrMod) :
    subStride x = x - uintptrSize := by
  have h2 : uintptrMod = 18446744073709551616 := by norm_num [uintptrMod]
  simp only [subStride, uintptrSize, h2] at *
  omega

theorem div8_sub (x : Nat) (hx : uintptrSize ≤ x) :
    (x - uintptrSize) / uintptrSize = x / uintptrSize - 1 := by
  simp only [uintptrSize] at *
  have h0 : 8 * (x / 8) + x % 8 = x := Nat.div_add_mod x 8
  have hr : x % 8 < 8 := Nat.mod_lt _ (by norm_num)
  have hq : 1 ≤ x / 8 := by
    rcases Nat.lt_or_ge (x / 8) 1 with hlt | hge
    · interval_cases hq : x / 8 <;> omega
    · exact hge
  have hd : x - 8 = x % 8 + (x / 8 - 1) * 8 := by
    have : (x / 8 - 1) * 8 = (x / 8) * 8 - 8 := by
      cases Nat.exists_eq_add_of_le hq with
      | intro k hk => rw [hk]; ring_nf; omega
    omega
  rw [hd, Nat.add_mul_div_right _ _ (by norm_num : 0 < 8),
    Nat.div_eq_of_lt hr, Nat.zero_add]

theorem decNode_op (c : opcode) : (decNode c).op = c.op := rfl

theorem decNode_shape (c : opcode) : shapeProj (decNode c) = shapeProj c := rfl

theorem fallthrough_decNode (c : opcode) :
    fallthrough (decNode c) = fallthrough c :=
  fallthrough_shape (decNode_shape c)

theorem sameShape_hset_decNode {h : Heap} {i : Nat} {c : opcode}
    (hg : hget h i = some c) : sameShape h (hset h i (decNode c)) := by
  intro k
  by_cases hk : k = i
  · subst hk
    rw [hget_hset_self _ (hget_lt_length hg), hg]
    rfl
  · rw [hget_hset_ne _ hk]

theorem getLast_not_mem_dropLast {l : List Nat} (hnd : l.Nodup) {x : Nat}
    (hx : l.getLast? = some x) : x ∉ l.dropLast := by
  intro hmem
  have hne : l ≠ [] := by rintro rfl; simp at hx
  have heq : l.dropLast ++ [l.getLast hne] = l :=
    List.dropLast_append_getLast hne
  have hxl : x = l.getLast hne := by
    rw [List.getLast?_eq_getLast l hne] at hx
    exact (Option.some.inj hx).symm
  rw [← heq] at hnd
  rw [List.nodup_append] at hnd
  exact hnd.2.2 hmem (by simp [hxl])

/-- The run of `decOpcodeIndex` over a terminating, duplicate-free chain:
it succeeds and maps exactly the non-terminal chain nodes through
`decNode`, leaving every other node untouched. -/
theorem dec_run :
    ∀ {l : List Nat} {h : Heap} {i : Nat}, IsChain h i l → l.Nodup →
      ∀ fuel, l.length ≤ fuel →
      ∃ h', decOpcodeIndex h fuel i = some h' ∧
        ∀ k, hget h' k =
          if k ∈ l.dropLast then (hget h k).map decNode else hget h k := by
  intro l
  induction l with
  | nil => intro h i hc; exact absurd rfl (isChain_ne_nil hc)
  | cons x t ih =>
    intro h i hc hnd fuel hfl
    rcases isChain_inv hc with ⟨c, hg, hop, hl⟩ | ⟨c, j, t', hg, hop, hf, ht', hl⟩
    · have hxi : i = x := ((List.cons.injEq _ _ _ _).mp hl).1.symm
      subst hxi
      have ht : t = [] := ((List.cons.injEq _ _ _ _).mp hl).2
      subst ht
      cases fuel with
      | zero => simp at hfl
      | succ fuel =>
        refine ⟨h, ?_, ?_⟩
        · simp only [decOpcodeIndex, hg, if_pos hop]
        · intro k
          simp
    · have hxi : i = x := ((List.cons.injEq _ _ _ _).mp hl).1.symm
      subst hxi
      have ht : t = t' := ((List.cons.injEq _ _ _ _).mp hl).2
      subst ht
      cases fuel with
      | zero => simp at hfl
      | succ fuel =>
        have hnd' : t.Nodup := (List.nodup_cons.mp hnd).2
        have hmem : i ∉ t := (List.nodup_cons.mp hnd).1
        have hchain' : IsChain (hset h i (decNode c)) j t :=
          isChain_sameShape (sameShape_hset_decNode hg) ht'
        obtain ⟨h', hrun, hpt⟩ := ih hchain' hnd' fuel
          (by simp only [List.length_cons] at hfl; omega)
        refine ⟨h', ?_, ?_⟩
        · simp only [decOpcodeIndex, hg, if_neg hop, hf]
          exact hrun
        · intro k
          obtain ⟨t0, ht0⟩ := isChain_cons ht'
          subst ht0
          rw [List.dropLast_cons₂]
          by_cases hk : k = i
          · subst hk
            have hni : k ∉ (j :: t0).dropLast := fun hmm =>
              hmem (List.dropLast_subset _ hmm)
            rw [hpt k, if_neg hni, if_pos (by simp),
              hget_hset_self _ (hget_lt_length hg), hg]
            rfl
          · rw [hpt k, hget_hset_ne _ hk]
            by_cases hk2 : k ∈ (j :: t0).dropLast
            · rw [if_pos hk2, if_pos (by simp [hk2])]
            · rw [if_neg hk2, if_neg (by simp [hk, hk2])]

/-- Running `totalLength` before and after the `decNode` rewrite of the
non-terminal chain nodes: either the head is already the terminal (both
runs return `acc + 2`), or the result drops by exactly one. -/
theorem dec_totalLength_pair {h h' : Heap} {S : List Nat}
    (hpt : ∀ k, hget h' k =
      if k ∈ S then (hget h k).map decNode else hget h k)
    (hS : ∀ k ∈ S, ∀ c, hget h k = some c →
      uintptrSize ≤ c.idx ∧ c.idx < uintptrMod) :
    ∀ {i : Nat} {l : List Nat}, IsChain h i l →
      (∀ k ∈ l.dropLast, k ∈ S) →
      (∀ x, l.getLast? = some x → x ∉ S) →
      ∀ fuel, l.length ≤ fuel → ∀ acc acc',
      ((∃ c, hget h i = some c ∧ c.op = .opEnd) ∧
        totalLengthAux h fuel i acc = some (acc + 2) ∧
        totalLengthAux h' fuel i acc' = some (acc' + 2)) ∨
      (∃ v, 1 ≤ v ∧ totalLengthAux h fuel i acc = some (v + 2) ∧
        totalLengthAux h' fuel i acc' = some (v + 1)) := by
  intro i l hc
  induction hc with
  | @done i c hg hop =>
    intro hsub hlast fuel hfl acc acc'
    cases fuel with
    | zero => simp at hfl
    | succ fuel =>
      have hiS : i ∉ S := hlast i rfl
      have hg' : hget h' i = some c := by rw [hpt i, if_neg hiS, hg]
      exact Or.inl ⟨⟨c, hg, hop⟩,
        by simp only [totalLengthAux, hg, if_pos hop],
        by simp only [totalLengthAux, hg', if_pos hop]⟩
  | @step i j c l hg hop hf htail ih =>
    intro hsub hlast fuel hfl acc acc'
    cases fuel with
    | zero => simp at hfl
    | succ fuel =>
      obtain ⟨t0, ht0⟩ := isChain_cons htail
      have hiS : i ∈ S := by
        refine hsub i ?_
        subst ht0
        rw [List.dropLast_cons₂]
        simp
      have hbd := hS i hiS c hg
      have hg' : hget h' i = some (decNode c) := by
        rw [hpt i, if_pos hiS, hg]; rfl
      have hv1 : 1 ≤ c.idx / uintptrSize :=
        Nat.le_div_iff_mul_le (by norm_num [uintptrSize]) |>.mpr
          (by simpa using hbd.1)
      have hvd : (decNode c).idx / uintptrSize = c.idx / uintptrSize - 1 := by
        show subStride c.idx / uintptrSize = _
        rw [subStride_eq hbd.1 hbd.2, div8_sub _ hbd.1]
      have hop' : (decNode c).op ≠ .opEnd := by rw [decNode_op]; exact hop
      by_cases hsp : c.op = .opInterfaceEnd ∨ c.op = .opStructFieldRecursiveEnd
      · have hsp' : (decNode c).op = .opInterfaceEnd ∨
            (decNode c).op = .opStructFieldRecursiveEnd := by
          rw [decNode_op]; exact hsp
        refine Or.inr ⟨c.idx / uintptrSize, hv1, ?_, ?_⟩
        · simp only [totalLengthAux, hg, if_neg hop, if_pos hsp]
        · simp only [totalLengthAux, hg', if_neg hop', if_pos hsp', hvd]
          congr 1
          omega
      · have hrec := ih (by
            intro k hk
            refine hsub k ?_
            subst ht0
            rw [List.dropLast_cons₂]
            simp [hk])
          (by
            intro x hx
            refine hlast x ?_
            subst ht0
            rw [List.getLast?_cons_cons]
            exact hx)
          fuel (by simp only [List.length_cons] at hfl; omega)
          (c.idx / uintptrSize) (c.idx / uintptrSize - 1)
        have hstepL : totalLengthAux h (fuel + 1) i acc =
            totalLengthAux h fuel j (c.idx / uintptrSize) := by
          simp only [totalLengthAux, hg, if_neg hop, if_neg hsp, hf]
        have hsp' : ¬((decNode c).op = .opInterfaceEnd ∨
            (decNode c).op = .opStructFieldRecursiveEnd) := by
          rw [decNode_op]; exact hsp
        have hstepR : totalLengthAux h' (fuel + 1) i acc' =
            totalLengthAux h' fuel j (c.idx / uintptrSize - 1) := by
          simp only [totalLengthAux, hg', if_neg hop', if_neg hsp',
            fallthrough_decNode, hf, hvd]
        rcases hrec with ⟨hend, hL, hR⟩ | ⟨w, hw, hL, hR⟩
        · refine Or.inr ⟨c.idx / uintptrSize, hv1, ?_, ?_⟩
          · rw [hstepL, hL]
          · rw [hstepR, hR]
            congr 1
            omega
        · exact Or.inr ⟨w, hw, by rw [hstepL, hL], by rw [hstepR, hR]⟩

/-- Claim C1, counterexample: `decOpcodeIndex` does NOT decrement the map
position slot (`mapPos`).  In this graph (the shape `newMapEndCode`
builds), the map-end node on the fallthrough chain carries the nonzero
position-slot offset 8; after `decOpcodeIndex` it is still 8 rather than
one stride smaller (0), while `idx` 16 is correctly decremented to 8. -/
theorem C1_counterexample :
    chainList c1Graph 2 0 = some [0, 1] ∧ List.Nodup [0, 1] ∧
    (decOpcodeIndex c1Graph 2 0).bind (fun h => (hget h 0).map opcode.mapPos) =
      some 8 ∧
    (8 : Nat) - uintptrSize = 0 ∧
    (decOpcodeIndex c1Graph 2 0).bind (fun h => (hget h 0).map opcode.idx) =
      some 8 := by
  decide

/-- Claim C1, amended: on a well-formed chain (terminating, duplicate-free,
stride-aligned offsets) whose head is a non-terminal node, `decOpcodeIndex`
decrements the display index, the value slot, and every populated head,
element and iterator slot by exactly one stride; the `length` of
fixed-array heads/elements (a literal count) is unchanged while populated
register-backed lengths drop one stride; the map position slot `mapPos` is
left unchanged (this is the one deviation from the original claim); nodes
off the chain are untouched; and `totalLength` decreases by exactly one. -/
theorem C1_amended {h : Heap} {fuel i : Nat} {l : List Nat} {c0 : opcode}
    (hcl : chainList h fuel i = some l) (hnd : l.Nodup)
    (hg0 : hget h i = some c0) (hop0 : c0.op ≠ .opEnd)
    (hbd : ∀ k ∈ l.dropLast, ∀ c, hget h k = some c → decBounds c) :
    ∃ h', decOpcodeIndex h fuel i = some h' ∧
      (∀ k ∈ l.dropLast, ∀ c, hget h k = some c →
        ∃ c', hget h' k = some c' ∧
          c'.displayIdx = c.displayIdx - 1 ∧
          c'.idx = c.idx - uintptrSize ∧
          (0 < c.headIdx → c'.headIdx = c.headIdx - uintptrSize) ∧
          (c.headIdx = 0 → c'.headIdx = 0) ∧
          (0 < c.elemIdx → c'.elemIdx = c.elemIdx - uintptrSize) ∧
          (c.elemIdx = 0 → c'.elemIdx = 0) ∧
          (0 < c.mapIter → c'.mapIter = c.mapIter - uintptrSize) ∧
          (c.mapIter = 0 → c'.mapIter = 0) ∧
          ((c.op.codeType = .codeArrayHead ∨ c.op.codeType = .codeArrayElem) →
            c'.length = c.length) ∧
          (0 < c.length → c.op.codeType ≠ .codeArrayHead →
            c.op.codeType ≠ .codeArrayElem →
            c'.length = c.length - uintptrSize) ∧
          (c.length = 0 → c'.length = 0) ∧
          c'.mapPos = c.mapPos ∧
          c'.op = c.op ∧ c'.next = c.next ∧ c'.end_ = c.end_ ∧
          c'.nextField = c.nextField ∧ c'.mapKey = c.mapKey ∧
          c'.mapValue = c.mapValue ∧ c'.elem = c.elem ∧ c'.jmp = c.jmp ∧
          c'.size = c.size ∧ c'.offset = c.offset) ∧
      (∀ k, k ∉ l.dropLast → hget h' k = hget h k) ∧
      (∀ r, totalLength h i fuel = some r →
        3 ≤ r ∧ totalLength h' i fuel = some (r - 1)) := by
  have hc := chainList_isChain hcl
  have hfl := chainList_fuel hcl
  obtain ⟨h', hrun, hpt⟩ := dec_run hc hnd fuel hfl
  refine ⟨h', hrun, ?_, ?_, ?_⟩
  · intro k hk c hgc
    obtain ⟨hb1, hb2, hbh, hbe, hbm, hbl⟩ := hbd k hk c hgc
    refine ⟨decNode c, by rw [hpt k, if_pos hk, hgc]; rfl, ?_⟩
    refine ⟨rfl, ?_, ?_, ?_, ?_, ?_, ?_, ?_, ?_, ?_, ?_, rfl, rfl, rfl, rfl,
      rfl, rfl, rfl, rfl, rfl, rfl, rfl⟩
    · show subStride c.idx = _
      exact subStride_eq hb1 hb2
    · intro hpos
      show (if 0 < c.headIdx then subStride c.headIdx else c.headIdx) = _
      rw [if_pos hpos, subStride_eq (hbh hpos).1 (hbh hpos).2]
    · intro hz
      show (if 0 < c.headIdx then subStride c.headIdx else c.headIdx) = _
      rw [hz]; simp
    · intro hpos
      show (if 0 < c.elemIdx then subStride c.elemIdx else c.elemIdx) = _
      rw [if_pos hpos, subStride_eq (hbe hpos).1 (hbe hpos).2]
    · intro hz
      show (if 0 < c.elemIdx then subStride c.elemIdx else c.elemIdx) = _
      rw [hz]; simp
    · intro hpos
      show (if 0 < c.mapIter then subStride c.mapIter else c.mapIter) = _
      rw [if_pos hpos, subStride_eq (hbm hpos).1 (hbm hpos).2]
    · intro hz
      show (if 0 < c.mapIter then subStride c.mapIter else c.mapIter) = _
      rw [hz]; simp
    · intro harr
      show (if 0 < c.length ∧ c.op.codeType ≠ .codeArrayHead ∧
          c.op.codeType ≠ .codeArrayElem
        then subStride c.length else c.length) = _
      rcases harr with h1 | h1 <;>
        rw [if_neg (by simp [h1])]
    · intro hpos hn1 hn2
      show (if 0 < c.length ∧ c.op.codeType ≠ .codeArrayHead ∧
          c.op.codeType ≠ .codeArrayElem
        then subStride c.length else c.length) = _
      rw [if_pos ⟨hpos, hn1, hn2⟩, subStride_eq (hbl hpos).1 (hbl hpos).2]
    · intro hz
      show (if 0 < c.length ∧ c.op.codeType ≠ .codeArrayHead ∧
          c.op.codeType ≠ .codeArrayElem
        then subStride c.length else c.length) = _
      rw [hz]
      simp
  · intro k hk
    rw [hpt k, if_neg hk]
  · intro r hr
    have hpair := dec_totalLength_pair hpt
      (fun k hk c hgc => ⟨(hbd k hk c hgc).1, (hbd k hk c hgc).2.1⟩)
      hc (fun k hk => hk) (fun x hx => getLast_not_mem_dropLast hnd hx)
      fuel hfl 0 0
    rcases hpair with ⟨⟨ce, hge, hoe⟩, _, _⟩ | ⟨v, hv, hL, hR⟩
    · rw [hg0] at hge
      exact absurd (by cases hge; exact hoe) hop0
    · unfold totalLength at hr ⊢
      rw [hL] at hr
      have hrv : r = v + 2 := (Option.some.inj hr).symm
      subst hrv
      refine ⟨by omega, ?_⟩
      rw [hR]
      exact congrArg some (by omega)

/-- Claim C1, witness: the amended theorem applied to the concrete
slice-header graph `c2Graph`. -/
theorem C1_witness :
    chainList c2Graph 2 0 = some [0, 1] ∧
    (decOpcodeIndex c2Graph 2 0).isSome = true := by
  have hbd : ∀ k ∈ ([0, 1] : List Nat).dropLast, ∀ c,
      hget c2Graph k = some c → decBounds c := by
    intro k hk c hgc
    have hk0 : k = 0 := by simpa using hk
    subst hk0
    simp only [c2Graph, hget, Option.some.injEq] at hgc
    subst hgc
    unfold decBounds
    decide
  obtain ⟨h', hrun, -, -, -⟩ :=
    C1_amended (show chainList c2Graph 2 0 = some [0, 1] by decide)
      (by decide) rfl (by decide) hbd
  exact ⟨by decide, by rw [hrun]; rfl⟩

/-! ### Claims C3 and C10 -/

theorem sameShape_hset_of_shape {h : Heap} {i : Nat} {c c' : opcode}
    (hg : hget h i = some c) (hsp : shapeProj c' = shapeProj c) :
    sameShape h (hset h i c') := by
  intro k
  by_cases hk : k = i
  · subst hk
    rw [hget_hset_self _ (hget_lt_length hg), hg]
    simp only [Option.map_some', hsp]
  · rw [hget_hset_ne _ hk]

/-- The splice search loop walks to the terminal and returns the heap
unchanged when the skipped node is nobody's fallthrough successor on the
chain. -/
theorem loop_no_find {h : Heap} {cur : Nat} :
    ∀ {i : Nat} {l : List Nat}, IsChain h i l →
      (∀ x ∈ l.tail, x ≠ cur) →
      (∀ c0, hget h i = some c0 → c0.op ≠ .opEnd) →
      ∀ fuel, l.length ≤ fuel →
      linkPrevToNextFieldLoop h cur fuel i = some h := by
  intro i l hc
  induction hc with
  | @done i c hg hop =>
    intro hne hn0 fuel hfl
    exact absurd hop (by simp [hn0 c hg])
  | @step i j c l hg hop hf htail ih =>
    intro hne hn0 fuel hfl
    cases fuel with
    | zero => simp at hfl
    | succ fuel =>
      obtain ⟨t0, ht0⟩ := isChain_cons htail
      have hjne : ¬(some j = some cur) := by
        simp only [Option.some.injEq]
        exact hne j (by subst ht0; simp)
      rcases isChain_inv htail with ⟨cj, hgj, hopj, hlj⟩ |
        ⟨cj, j2, t2, hgj, hopj, hfj, ht2, hlj⟩
      · simp only [linkPrevToNextFieldLoop, hg, hf]
        rw [if_neg hjne]; simp only [hgj]; rw [if_pos hopj]
      · simp only [linkPrevToNextFieldLoop, hg, hf]
        rw [if_neg hjne]; simp only [hgj]; rw [if_neg hopj]
        exact ih (fun x hx => hne x (by subst ht0; simp [List.mem_of_mem_tail hx]))
          (fun c0 hg0 => by rw [hgj] at hg0; cases hg0; exact hopj)
          fuel (by simp only [List.length_cons] at hfl; omega)

/-- The splice search loop finds the first node whose fallthrough
successor is exactly `cur` and rewrites that node's `next` link to
`cur`'s `next`. -/
theorem loop_find {h : Heap} {cur : Nat} {f : opcode}
    (hgf : hget h cur = some f) :
    ∀ {i m : Nat} {l1 : List Nat}, Walks h i l1 m →
      (∀ x ∈ l1.tail, x ≠ cur) → m ≠ cur →
      ∀ cm, hget h m = some cm → cm.op ≠ .opEnd → fallthrough cm = some cur →
      ∀ fuel, l1.length + 1 ≤ fuel →
      linkPrevToNextFieldLoop h cur fuel i =
        some (hset h m { cm with next := f.next }) := by
  intro i m l1 hw
  induction hw with
  | @nil i =>
    intro hne hmne cm hgm hopm hfm fuel hfl
    cases fuel with
    | zero => simp at hfl
    | succ fuel =>
      simp only [linkPrevToNextFieldLoop, hgm, hfm]
      rw [if_pos trivial]
      simp only [hgf]
  | @cons i j k c l hg hop hf htail ih =>
    intro hne hmne cm hgm hopm hfm fuel hfl
    cases fuel with
    | zero => simp at hfl
    | succ fuel =>
      have hjfact : hget h j = some cm ∧ j = k ∨
          (∃ cj, hget h j = some cj ∧ cj.op ≠ .opEnd ∧ j ∈ l) := by
        rcases walks_inv htail with ⟨hl0, hjk⟩ | ⟨cj, j2, t2, hgj, hopj, hfj, ht2, hlj⟩
        · subst hjk; exact Or.inl ⟨hgm, rfl⟩
        · exact Or.inr ⟨cj, hgj, hopj, by rw [hlj]; simp⟩
      have hjne : ¬(some j = some cur) := by
        simp only [Option.some.injEq]
        rcases hjfact with ⟨_, hjk⟩ | ⟨_, _, _, hjl⟩
        · subst hjk; exact hmne
        · exact hne j hjl
      rcases hjfact with ⟨hgj, hjk⟩ | ⟨cj, hgj, hopj, hjl⟩
      · simp only [linkPrevToNextFieldLoop, hg, hf]
        rw [if_neg hjne]; simp only [hgj]; rw [if_neg hopm]
        exact ih (fun x hx => hne x (List.mem_of_mem_tail hx)) hmne cm hgm hopm
          hfm fuel (by simp only [List.length_cons] at hfl; omega)
      · simp only [linkPrevToNextFieldLoop, hg, hf]
        rw [if_neg hjne]; simp only [hgj]; rw [if_neg hopj]
        exact ih (fun x hx => hne x (List.mem_of_mem_tail hx)) hmne cm hgm hopm
          hfm fuel (by simp only [List.length_cons] at hfl; omega)

/-- Claim C10: when `cur` is not the fallthrough successor of any node on
`prev`'s terminating fallthrough chain, `linkPrevToNextField` terminates,
sets `prev.nextField` to `cur.nextField`, and leaves every other field of
every node unchanged (its result is exactly the one-field update). -/
theorem C10_frame {h : Heap} {prev cur : Nat} {p f : opcode} {l : List Nat}
    {fuel : Nat}
    (hgp : hget h prev = some p) (hgf : hget h cur = some f)
    (hop : p.op ≠ .opEnd)
    (hcl : chainList h fuel prev = some l)
    (hnc : ∀ x ∈ l.tail, x ≠ cur) :
    linkPrevToNextField h prev cur fuel =
      some (hset h prev { p with nextField := f.nextField }) ∧
    hget (hset h prev { p with nextField := f.nextField }) prev =
      some { p with nextField := f.nextField } ∧
    ∀ k, k ≠ prev →
      hget (hset h prev { p with nextField := f.nextField }) k = hget h k := by
  have hc := chainList_isChain hcl
  have hfl := chainList_fuel hcl
  have hshape : sameShape h (hset h prev { p with nextField := f.nextField }) :=
    sameShape_hset_of_shape hgp rfl
  have hc1 : IsChain (hset h prev { p with nextField := f.nextField }) prev l :=
    isChain_sameShape hshape hc
  have hself : hget (hset h prev { p with nextField := f.nextField }) prev =
      some { p with nextField := f.nextField } :=
    hget_hset_self _ (hget_lt_length hgp)
  refine ⟨?_, hself, fun k hk => hget_hset_ne _ hk⟩
  simp only [linkPrevToNextField, hgp, hgf]
  exact loop_no_find hc1 hnc
    (fun c0 hg0 => by rw [hself] at hg0; cases hg0; exact hop) fuel hfl

/-- Claim C10, witness: `C10_frame` applied to a chain `a -> terminal`
and an off-chain node `b`. -/
theorem C10_witness :
    chainList c10Graph 2 0 = some [0, 1] ∧
    (linkPrevToNextField c10Graph 0 2 2).isSome = true := by
  have hmain := @C10_frame c10Graph 0 2 _ _ _ _
    rfl rfl (by decide)
    (show chainList c10Graph 2 0 = some [0, 1] by decide)
    (by decide)
  exact ⟨by decide, by rw [hmain.1]; rfl⟩

/-- Claim C3, counterexample: when the node whose fallthrough successor is
the skipped field `b` is a slice element (whose fallthrough edge is `end`),
`linkPrevToNextField` rewrites that node's `next` — not its fallthrough
edge — so the `end` edge still points at `b` (node 2), and the fallthrough
traversal from `a` still visits `b`. -/
theorem C3_counterexample :
    (linkPrevToNextField c3Graph 0 2 5).bind (fun h2 => chainList h2 5 0) =
      some [0, 1, 2, 3] ∧
    (linkPrevToNextField c3Graph 0 2 5).bind
        (fun h2 => (hget h2 1).map opcode.end_) = some (some 2) ∧
    (2 : Nat) ∈ [0, 1, 2, 3] := by
  decide

/-- Claim C3, amended: if the fallthrough chain from `a` (after the
`a.nextField := b.nextField` update) decomposes as
`l1 ++ m :: b :: l2` with no duplicates, where the predecessor `m` and
the skipped node `b` are both of `next`-fallthrough kinds, then the
splice (i) leaves `a.nextField = b.nextField`, (ii) rewrites exactly
`m.next` to `b`'s former `next`, and (iii) the fallthrough traversal of
the result from `a` is `l1 ++ m :: l2`, which never visits `b`. -/
theorem C3_amended {h : Heap} {prev cur : Nat} {p f : opcode} {fuel : Nat}
    {l1 l2 : List Nat} {m : Nat}
    (hgp : hget h prev = some p) (hgf : hget h cur = some f)
    (hcl : chainList (hset h prev { p with nextField := f.nextField }) fuel
      prev = some (l1 ++ m :: cur :: l2))
    (hnd : (l1 ++ m :: cur :: l2).Nodup)
    (hmk : ∀ cm, hget (hset h prev { p with nextField := f.nextField }) m =
      some cm → cm.op.codeType ≠ .codeArrayElem ∧
      cm.op.codeType ≠ .codeSliceElem ∧ cm.op.codeType ≠ .codeMapKey)
    (hfk : f.op.codeType ≠ .codeArrayElem ∧ f.op.codeType ≠ .codeSliceElem ∧
      f.op.codeType ≠ .codeMapKey)
    (hfe : f.op ≠ .opEnd) :
    ∃ h', linkPrevToNextField h prev cur fuel = some h' ∧
      (∃ pc, hget h' prev = some pc ∧ pc.nextField = f.nextField) ∧
      (∃ cm, hget (hset h prev { p with nextField := f.nextField }) m =
          some cm ∧
        h' = hset (hset h prev { p with nextField := f.nextField }) m
          { cm with next := f.next }) ∧
      chainList h' fuel prev = some (l1 ++ m :: l2) ∧
      cur ∉ l1 ++ m :: l2 := by
  have hc := chainList_isChain hcl
  have hfl := chainList_fuel hcl
  have hlenL : (l1 ++ m :: cur :: l2).length = l1.length + l2.length + 2 := by
    simp [List.length_append]
    omega
  -- Nodup facts
  have hndm : (m :: cur :: l2).Nodup := (List.nodup_append.mp hnd).2.1
  have hdisj : l1.Disjoint (m :: cur :: l2) := (List.nodup_append.mp hnd).2.2
  have hmcur : m ≠ cur := by
    have := (List.nodup_cons.mp hndm).1
    simp only [List.mem_cons] at this
    exact fun he => this (Or.inl he)
  have hml2 : m ∉ l2 := by
    have := (List.nodup_cons.mp hndm).1
    simp only [List.mem_cons] at this
    exact fun he => this (Or.inr he)
  have hcurl2 : cur ∉ l2 :=
    (List.nodup_cons.mp (List.nodup_cons.mp hndm).2).1
  have hcurl1 : cur ∉ l1 := fun hmm => hdisj hmm (by simp)
  have hml1 : m ∉ l1 := fun hmm => hdisj hmm (by simp)
  -- cur is not the chain's head
  have hcurprev : cur ≠ prev := by
    obtain ⟨t, ht⟩ := isChain_cons hc
    cases l1 with
    | nil =>
      have hmp : m = prev := by
        have := (List.cons.injEq _ _ _ _).mp (by simpa using ht)
        exact this.1
      rw [← hmp]
      exact fun he => hmcur he.symm
    | cons x l1t =>
      have hxp : x = prev := by
        have := (List.cons.injEq _ _ _ _).mp (by simpa using ht)
        exact this.1
      rw [← hxp]
      intro he
      exact hcurl1 (by simp [he])
  -- node of cur in the nextField-updated heap
  have hgf1 : hget (hset h prev { p with nextField := f.nextField }) cur =
      some f := by
    rw [hget_hset_ne _ hcurprev, hgf]
  -- decompose the chain at m and at cur
  obtain ⟨hwalk, hchm⟩ :=
    @isChain_decomp l1 _ _ m (cur :: l2) hc
  rcases isChain_inv hchm with ⟨cm, hgm, hopm, hlm⟩ |
    ⟨cm, jm, tm, hgm, hopm, hfm, htm, hlm⟩
  · exact absurd (congrArg List.length hlm) (by simp)
  · have htmeq : tm = cur :: l2 := ((List.cons.injEq _ _ _ _).mp hlm).2.symm
    subst htmeq
    obtain ⟨t2, ht2⟩ := isChain_cons htm
    have hjm : cur = jm := ((List.cons.injEq _ _ _ _).mp ht2).1
    subst hjm
    -- m's fallthrough kinds
    have hmkm := hmk cm hgm
    -- the loop rewrites m.next to f.next
    have hrun : linkPrevToNextFieldLoop
        (hset h prev { p with nextField := f.nextField }) cur fuel prev =
        some (hset (hset h prev { p with nextField := f.nextField }) m
          { cm with next := f.next }) :=
      loop_find hgf1 hwalk
        (fun x hx he => hcurl1 (he ▸ List.mem_of_mem_tail hx))
        hmcur
        cm hgm hopm hfm fuel (by rw [hlenL] at hfl; omega)
    -- the successor of cur on the old chain
    have hl2head : ∃ j2, f.next = some j2 ∧
        IsChain (hset h prev { p with nextField := f.nextField }) j2 l2 ∧
        l2 ≠ [] := by
      rcases isChain_inv htm with ⟨cf, hgcf, hopf, hlf⟩ |
        ⟨cf, j2, t3, hgcf, hopf, hff, ht3, hlf⟩
      · rw [hgf1] at hgcf
        cases hgcf
        exact absurd hopf hfe
      · rw [hgf1] at hgcf
        cases hgcf
        have ht3eq : t3 = l2 := ((List.cons.injEq _ _ _ _).mp hlf).2.symm
        subst ht3eq
        refine ⟨j2, ?_, ht3, ?_⟩
        · rw [← fallthrough_default hfk.1 hfk.2.1 hfk.2.2]
          exact hff
        · exact isChain_ne_nil ht3
    obtain ⟨j2, hfnext, hchl2, hl2ne⟩ := hl2head
    -- assemble the new chain in the spliced heap
    have hmlt := hget_lt_length hgm
    have hgmnew : hget (hset (hset h prev { p with nextField := f.nextField })
        m { cm with next := f.next }) m = some { cm with next := f.next } :=
      hget_hset_self _ hmlt
    have hwalk' : Walks (hset (hset h prev { p with nextField := f.nextField })
        m { cm with next := f.next }) prev l1 m :=
      walks_transfer hwalk (fun x hx =>
        hget_hset_ne _ (fun he => hml1 (he ▸ hx)))
    have hchl2' : IsChain (hset (hset h prev
        { p with nextField := f.nextField }) m { cm with next := f.next })
        j2 l2 :=
      isChain_transfer hchl2 (fun x hx =>
        hget_hset_ne _ (fun he => hml2 (he ▸ hx)))
    have hfnew : fallthrough { cm with next := f.next } = some j2 := by
      rw [fallthrough_default (c := { cm with next := f.next })
        hmkm.1 hmkm.2.1 hmkm.2.2]
      exact hfnext
    have hchain' : IsChain (hset (hset h prev
        { p with nextField := f.nextField }) m { cm with next := f.next })
        prev (l1 ++ m :: l2) := by
      have hstep : Walks (hset (hset h prev
          { p with nextField := f.nextField }) m { cm with next := f.next })
          m [m] j2 :=
        Walks.cons hgmnew hopm hfnew Walks.nil
      have := walks_isChain (walks_append hwalk' hstep) hchl2'
      simpa using this
    refine ⟨_, ?_, ?_, ⟨cm, hgm, rfl⟩, ?_, ?_⟩
    · simp only [linkPrevToNextField, hgp, hgf]
      exact hrun
    · by_cases hmp : m = prev
      · subst hmp
        have hp1 : hget (hset h m { p with nextField := f.nextField }) m =
            some { p with nextField := f.nextField } :=
          hget_hset_self _ (hget_lt_length hgp)
        rw [hp1] at hgm
        have hcmeq : cm = { p with nextField := f.nextField } :=
          (Option.some.inj hgm).symm
        refine ⟨{ cm with next := f.next }, hget_hset_self _ ?_, ?_⟩
        · rw [hset_length]
          exact hget_lt_length hgp
        · rw [hcmeq]
      · refine ⟨{ p with nextField := f.nextField }, ?_, rfl⟩
        rw [hget_hset_ne _ (fun he => hmp he.symm), hget_hset_self _ (hget_lt_length hgp)]
    · refine isChain_chainList hchain' fuel ?_
      rw [hlenL] at hfl
      simp only [List.length_append, List.length_cons]
      omega
    · intro hmem
      rcases List.mem_append.mp hmem with hx | hx
      · exact hcurl1 hx
      · rcases List.mem_cons.mp hx with hx2 | hx2
        · exact hmcur hx2.symm
        · exact hcurl2 hx2


/-- Claim C3, witness: splicing field `b` (node 1) out of the plain field
chain `a -> b -> terminal` leaves the fallthrough traversal `[0, 2]`,
which never visits `b`. -/
theorem C3_witness :
    (linkPrevToNextField c3wGraph 0 1 3).isSome = true ∧
    (linkPrevToNextField c3wGraph 0 1 3).bind (fun h2 => chainList h2 3 0) =
      some [0, 2] := by
  obtain ⟨h', hrun, hpc, hcm, hchain, hnot⟩ :=
    @C3_amended c3wGraph 0 1 _ _ 3 [] [2] 0 rfl rfl (by decide) (by decide)
      (by
        intro cm hc
        simp only [c3wGraph, hset, hget, Option.some.injEq] at hc
        subst hc
        decide)
      (by decide) (by decide)
  refine ⟨by rw [hrun]; rfl, ?_⟩
  rw [hrun]
  simpa using hchain

/-! ### Memo-table lemmas for `copy` -/

theorem codeMapLookup_append (m1 m2 : codeMap) (a : Nat) :
    codeMapLookup (m1 ++ m2) a =
      match codeMapLookup m1 a with
      | some v => some v
      | none => codeMapLookup m2 a := by
  induction m1 with
  | nil => rfl
  | cons q t ih =>
    obtain ⟨k, v⟩ := q
    by_cases hk : k = a
    · subst hk
      simp [codeMapLookup]
    · simp [codeMapLookup, hk, ih]

theorem codeMapLookup_mem {m : codeMap} {a b : Nat}
    (h : codeMapLookup m a = some b) : (a, b) ∈ m := by
  induction m with
  | nil => simp [codeMapLookup] at h
  | cons q t ih =>
    obtain ⟨k, v⟩ := q
    by_cases hk : k = a
    · subst hk
      simp only [codeMapLookup, if_pos rfl] at h
      cases h
      simp
    · simp only [codeMapLookup, if_neg hk] at h
      simp [ih h]

theorem codeMapLookup_not_key {m : codeMap} {a : Nat}
    (h : ∀ q ∈ m, q.1 ≠ a) : codeMapLookup m a = none := by
  induction m with
  | nil => rfl
  | cons q t ih =>
    obtain ⟨k, v⟩ := q
    simp only [codeMapLookup]
    rw [if_neg (h (k, v) (by simp))]
    exact ih (fun q hq => h q (by simp [hq]))

theorem codeMapLookup_none_not_mem {m : codeMap} {a : Nat}
    (h : codeMapLookup m a = none) : ∀ b, (a, b) ∉ m := by
  intro b hmem
  induction m with
  | nil => simp at hmem
  | cons q t ih =>
    obtain ⟨k, v⟩ := q
    by_cases hk : k = a
    · subst hk
      simp [codeMapLookup] at h
    · simp only [codeMapLookup, if_neg hk] at h
      rcases List.mem_cons.mp hmem with he | ht
    <;> first
      | exact hk (by cases he; rfl)
      | exact ih h ht

theorem codeMapLookup_stable {mnew m : codeMap} {a b : Nat}
    (hfresh : ∀ q ∈ mnew, codeMapLookup m q.1 = none)
    (h : codeMapLookup m a = some b) :
    codeMapLookup (mnew ++ m) a = some b := by
  rw [codeMapLookup_append]
  cases hv : codeMapLookup mnew a with
  | none => exact h
  | some v =>
    have hmem := codeMapLookup_mem hv
    have := hfresh _ hmem
    rw [this] at h
    cases h

theorem codeMapLookup_append_none {m1 m2 : codeMap} {a : Nat}
    (h : codeMapLookup (m1 ++ m2) a = none) :
    codeMapLookup m1 a = none ∧ codeMapLookup m2 a = none := by
  rw [codeMapLookup_append] at h
  cases hv : codeMapLookup m1 a with
  | none => rw [hv] at h; exact ⟨rfl, h⟩
  | some v => rw [hv] at h; cases h

theorem codeMapLookup_cons_none {m : codeMap} {k v a : Nat}
    (h : codeMapLookup ((k, v) :: m) a = none) :
    k ≠ a ∧ codeMapLookup m a = none := by
  by_cases hk : k = a
  · subst hk
    simp [codeMapLookup] at h
  · simp only [codeMapLookup, if_neg hk] at h
    exact ⟨hk, h⟩

theorem linkMapped_stable {mnew m : codeMap} {x y : Option Nat}
    (hfresh : ∀ q ∈ mnew, codeMapLookup m q.1 = none)
    (hl : linkMapped m x y) : linkMapped (mnew ++ m) x y := by
  obtain ⟨hy, hk⟩ := hl
  constructor
  · cases x with
    | none => simpa using hy
    | some a =>
      have hs := hk a rfl
      cases hba : codeMapLookup m a with
      | none => rw [hba] at hs; simp at hs
      | some b =>
        have hy' : y = codeMapLookup m a := hy
        show y = codeMapLookup (mnew ++ m) a
        rw [codeMapLookup_stable hfresh hba, hy']
        exact hba
  · intro a hx
    have hs := hk a hx
    cases hba : codeMapLookup m a with
    | none => rw [hba] at hs; simp at hs
    | some b => rw [codeMapLookup_stable hfresh hba]; rfl

theorem doneNode_stable {mnew m : codeMap} {c d : opcode}
    (hfresh : ∀ q ∈ mnew, codeMapLookup m q.1 = none)
    (hd : doneNode m c d) : doneNode (mnew ++ m) c d := by
  obtain ⟨hs, h1, h2, h3, h4, h5, h6, h7⟩ := hd
  exact ⟨hs, linkMapped_stable hfresh h1, linkMapped_stable hfresh h2,
    linkMapped_stable hfresh h3, linkMapped_stable hfresh h4,
    linkMapped_stable hfresh h5, linkMapped_stable hfresh h6, h7⟩

theorem copyExt_refl (st : CopyState) : CopyExt st st :=
  ⟨Nat.le_refl _, fun _ _ => rfl, [], rfl, by simp⟩

theorem doneEntry_ext {st st' : CopyState} (he : CopyExt st st')
    {a b : Nat} (hd : doneEntry st a b) : doneEntry st' a b := by
  obtain ⟨hlen, hpres, mnew, hm, hnewok⟩ := he
  obtain ⟨c, d, hga, hgb, hdn⟩ := hd
  refine ⟨c, d, ?_, ?_, ?_⟩
  · rw [hpres a (hget_lt_length hga)]; exact hga
  · rw [hpres b (hget_lt_length hgb)]; exact hgb
  · rw [hm]
    exact doneNode_stable (fun q hq => (hnewok q hq).1) hdn

theorem copyExt_trans {st1 st2 st3 : CopyState}
    (h12 : CopyExt st1 st2) (h23 : CopyExt st2 st3) : CopyExt st1 st3 := by
  obtain ⟨hl12, hp12, m12, hm12, hok12⟩ := h12
  obtain ⟨hl23, hp23, m23, hm23, hok23⟩ := h23
  refine ⟨Nat.le_trans hl12 hl23, ?_, m23 ++ m12, ?_, ?_⟩
  · intro k hk
    rw [hp23 k (Nat.lt_of_lt_of_le hk hl12), hp12 k hk]
  · rw [hm23, hm12, List.append_assoc]
  · intro q hq
    rcases List.mem_append.mp hq with hq2 | hq1
    · obtain ⟨hf, hv, hd⟩ := hok23 q hq2
      rw [hm12] at hf
      exact ⟨(codeMapLookup_append_none hf).2, Nat.le_trans hl12 hv, hd⟩
    · obtain ⟨hf, hv, hd⟩ := hok12 q hq1
      exact ⟨hf, hv, doneEntry_ext ⟨hl23, hp23, m23, hm23, hok23⟩ hd⟩

theorem mem_snd_inj :
    ∀ {l : List (Nat × Nat)}, (l.map Prod.snd).Nodup →
      ∀ {p q : Nat × Nat}, p ∈ l → q ∈ l → p.2 = q.2 → p = q := by
  intro l
  induction l with
  | nil => intro _ p q hp; simp at hp
  | cons x t ih =>
    intro hnd p q hp hq he
    simp only [List.map_cons, List.nodup_cons] at hnd
    rcases List.mem_cons.mp hp with hp1 | hp2 <;>
      rcases List.mem_cons.mp hq with hq1 | hq2
    · rw [hp1, hq1]
    · subst hp1
      refine absurd ?_ hnd.1
      have : q.2 ∈ t.map Prod.snd := List.mem_map.mpr ⟨q, hq2, rfl⟩
      rw [← he] at this
      exact this
    · subst hq1
      refine absurd ?_ hnd.1
      have : p.2 ∈ t.map Prod.snd := List.mem_map.mpr ⟨p, hp2, rfl⟩
      rw [he] at this
      exact this
    · exact ih hnd.2 hp2 hq2 he

theorem linkMapped_of_call {n0 : Nat} {x : Option Nat}
    {stA stB stZ : CopyState} {rx : Option Nat}
    (m : MasterConcl n0 stA x stB rx) (eBZ : CopyExt stB stZ) :
    linkMapped stZ.2 x rx := by
  cases x with
  | none =>
    obtain ⟨-, hr⟩ := m.2.2.1 rfl
    subst hr
    exact ⟨rfl, fun a ha => nomatch ha⟩
  | some a =>
    obtain ⟨hr, hs⟩ := m.2.2.2 a rfl
    obtain ⟨mnew, hm, hfr⟩ := eBZ.2.2
    cases hb : codeMapLookup stB.2 a with
    | none => rw [hb] at hs; simp at hs
    | some b =>
      have hz : codeMapLookup stZ.2 a = some b := by
        rw [hm]
        exact codeMapLookup_stable (fun q hq => (hfr q hq).1) hb
      constructor
      · show rx = codeMapLookup stZ.2 a
        rw [hz, hr, hb]
      · intro a2 ha2
        have : a2 = a := (Option.some.inj ha2).symm
        subst this
        rw [hz]
        rfl

theorem doneEntry_patch {st7 : CopyState} {j : Nat} {d0 : opcode}
    {a b : Nat} (hd : doneEntry st7 a b) (haj : a ≠ j) (hbj : b ≠ j) :
    doneEntry (hset st7.1 j d0, st7.2) a b := by
  obtain ⟨c2, d2, hga, hgb, hdn⟩ := hd
  exact ⟨c2, d2, by show hget (hset st7.1 j d0) a = _
                    rw [hget_hset_ne _ haj]; exact hga,
    by show hget (hset st7.1 j d0) b = _
       rw [hget_hset_ne _ hbj]; exact hgb, hdn⟩

theorem inv_insert {n0 : Nat} {st : CopyState} {i : Nat} {c : opcode}
    (hinv : InvSt n0 st) (hi : i < n0) (hg : hget st.1 i = some c)
    (hlk : codeMapLookup st.2 i = none) :
    InvSt n0 (st.1 ++ [placeholder c], (i, st.1.length) :: st.2) := by
  obtain ⟨hn0, hcr, hk, hv, hok⟩ := hinv
  refine ⟨by simp only [List.length_append, List.length_cons,
      List.length_nil]; omega, ?_, ?_, ?_, ?_⟩
  · intro k hkn c0 hg0
    rw [hget_append_left _ (by omega)] at hg0
    exact hcr k hkn c0 hg0
  · simp only [List.map_cons, List.nodup_cons]
    refine ⟨?_, hk⟩
    intro hmem
    obtain ⟨q, hq, hq1⟩ := List.mem_map.mp hmem
    refine codeMapLookup_none_not_mem hlk q.2 ?_
    have hqe : q = (i, q.2) := by
      obtain ⟨q1, q2⟩ := q
      simp only at hq1
      simp [hq1]
    rw [← hqe]
    exact hq
  · simp only [List.map_cons, List.nodup_cons]
    refine ⟨?_, hv⟩
    intro hmem
    obtain ⟨q, hq, hq2⟩ := List.mem_map.mp hmem
    have := (hok q hq).2.2.1
    omega
  · intro q hq
    rcases List.mem_cons.mp hq with he | ht
    · subst he
      refine ⟨hi, hn0,
        by simp only [List.length_append, List.length_cons,
          List.length_nil]; omega,
        c, placeholder c, ?_, ?_, Or.inl rfl⟩
      · show hget (st.1 ++ [placeholder c]) i = some c
        rw [hget_append_left _ (hget_lt_length hg)]
        exact hg
      · show hget (st.1 ++ [placeholder c]) st.1.length = some (placeholder c)
        have h0 := hget_append_right st.1 [placeholder c] 0
        simpa using h0
    · obtain ⟨ha, hb1, hb2, c0, d0, hgc0, hgd0, hpd⟩ := hok q ht
      refine ⟨ha, hb1,
        by simp only [List.length_append, List.length_cons,
          List.length_nil]; omega, c0, d0, ?_, ?_, ?_⟩
      · show hget (st.1 ++ [placeholder c]) q.1 = some c0
        rw [hget_append_left _ (hget_lt_length hgc0)]
        exact hgc0
      · show hget (st.1 ++ [placeholder c]) q.2 = some d0
        rw [hget_append_left _ (hget_lt_length hgd0)]
        exact hgd0
      · rcases hpd with hp | hd
        · exact Or.inl hp
        · refine Or.inr ?_
          show doneNode ([(i, st.1.length)] ++ st.2) c0 d0
          exact doneNode_stable (by simpa using hlk) hd

/-- Assembling the postcondition of a fresh `copy` call from the six
recursive calls' postconditions. -/
theorem copy_assemble {n0 : Nat} {st st1 st2 st3 st4 st5 st6 st7 : CopyState}
    {i : Nat} {c : opcode} {mk mv el en nf nx : Option Nat}
    (hinv : InvSt n0 st) (hi : i < n0) (hgi : hget st.1 i = some c)
    (hl : codeMapLookup st.2 i = none)
    (hst1 : st1 = (st.1 ++ [placeholder c], (i, st.1.length) :: st.2))
    (m1 : MasterConcl n0 st1 c.mapKey st2 mk)
    (m2 : MasterConcl n0 st2 c.mapValue st3 mv)
    (m3 : MasterConcl n0 st3 c.elem st4 el)
    (m4 : MasterConcl n0 st4 c.end_ st5 en)
    (m5 : MasterConcl n0 st5 c.nextField st6 nf)
    (m6 : MasterConcl n0 st6 c.next st7 nx) :
    MasterConcl n0 st (some i)
      (hset st7.1 st.1.length
        { c with
            mapKey := mk, mapValue := mv, elem := el, end_ := en,
            nextField := nf, next := nx, jmp := c.jmp }, st7.2)
      (some st.1.length) := by
  obtain ⟨hn0, hcr, hknd, hvnd, hok⟩ := hinv
  have hilt : i < st.1.length := hget_lt_length hgi
  have e27 : CopyExt st2 st7 :=
    copyExt_trans m2.1 (copyExt_trans m3.1 (copyExt_trans m4.1
      (copyExt_trans m5.1 m6.1)))
  have e37 : CopyExt st3 st7 :=
    copyExt_trans m3.1 (copyExt_trans m4.1 (copyExt_trans m5.1 m6.1))
  have e47 : CopyExt st4 st7 := copyExt_trans m4.1 (copyExt_trans m5.1 m6.1)
  have e57 : CopyExt st5 st7 := copyExt_trans m5.1 m6.1
  have e67 : CopyExt st6 st7 := m6.1
  have e77 : CopyExt st7 st7 := copyExt_refl st7
  have e17 : CopyExt st1 st7 := copyExt_trans m1.1 e27
  have hlen1 : st1.1.length = st.1.length + 1 := by
    rw [hst1]
    simp
  have lm1 : linkMapped st7.2 c.mapKey mk := linkMapped_of_call m1 e27
  have lm2 : linkMapped st7.2 c.mapValue mv := linkMapped_of_call m2 e37
  have lm3 : linkMapped st7.2 c.elem el := linkMapped_of_call m3 e47
  have lm4 : linkMapped st7.2 c.end_ en := linkMapped_of_call m4 e57
  have lm5 : linkMapped st7.2 c.nextField nf := linkMapped_of_call m5 e67
  have lm6 : linkMapped st7.2 c.next nx := linkMapped_of_call m6 e77
  have hdn : doneNode st7.2 c
      { c with
          mapKey := mk, mapValue := mv, elem := el, end_ := en,
          nextField := nf, next := nx, jmp := c.jmp } :=
    ⟨rfl, lm1, lm2, lm3, lm4, lm5, lm6, rfl⟩
  obtain ⟨hl17b, hp17, M17, hm17, hfr17⟩ := e17
  obtain ⟨hn07, hcr7, hknd7, hvnd7, hok7⟩ := m6.2.1
  have hlen17 : st1.1.length ≤ st7.1.length := hl17b
  have hjlt7 : st.1.length < st7.1.length := by omega
  have hm7 : st7.2 = M17 ++ ((i, st.1.length) :: st.2) := by
    rw [hm17, hst1]
  have hm7b : st7.2 = (M17 ++ [(i, st.1.length)]) ++ st.2 := by
    rw [hm7, List.append_cons]
  have hgi7 : hget st7.1 i = some c := by
    rw [hp17 i (by omega), hst1]
    show hget (st.1 ++ [placeholder c]) i = some c
    rw [hget_append_left _ hilt]
    exact hgi
  have hij : i ≠ st.1.length := by omega
  have hgi2 : hget (hset st7.1 st.1.length
      { c with
          mapKey := mk, mapValue := mv, elem := el, end_ := en,
          nextField := nf, next := nx, jmp := c.jmp }) i = some c := by
    rw [hget_hset_ne _ hij]
    exact hgi7
  have hgj2 : hget (hset st7.1 st.1.length
      { c with
          mapKey := mk, mapValue := mv, elem := el, end_ := en,
          nextField := nf, next := nx, jmp := c.jmp }) st.1.length =
      some { c with
          mapKey := mk, mapValue := mv, elem := el, end_ := en,
          nextField := nf, next := nx, jmp := c.jmp } :=
    hget_hset_self _ hjlt7
  have hde : doneEntry (hset st7.1 st.1.length
      { c with
          mapKey := mk, mapValue := mv, elem := el, end_ := en,
          nextField := nf, next := nx, jmp := c.jmp }, st7.2) i st.1.length :=
    ⟨c, _, hgi2, hgj2, hdn⟩
  have hmemij : (i, st.1.length) ∈ st7.2 := by
    rw [hm7]
    simp
  have hfr17b : ∀ q ∈ M17, codeMapLookup ((i, st.1.length) :: st.2) q.1 =
      none ∧ st.1.length + 1 ≤ q.2 := by
    intro q hq
    obtain ⟨hfq, hvq, -⟩ := hfr17 q hq
    rw [hst1] at hfq
    constructor
    · exact hfq
    · omega
  have hq1lt : ∀ q ∈ M17, q.1 < n0 := by
    intro q hq
    have hqmem : q ∈ st7.2 := by
      rw [hm17]
      exact List.mem_append_left _ hq
    exact (hok7 q hqmem).1
  refine ⟨⟨?_, ?_, M17 ++ [(i, st.1.length)], hm7b, ?_⟩, ⟨?_, ?_, hknd7,
    hvnd7, ?_⟩, ?_, ?_⟩
  · show st.1.length ≤ (hset st7.1 _ _).length
    rw [hset_length]
    omega
  · intro k hk
    show hget (hset st7.1 _ _) k = hget st.1 k
    rw [hget_hset_ne _ (by omega : k ≠ st.1.length), hp17 k (by omega), hst1]
    show hget (st.1 ++ [placeholder c]) k = hget st.1 k
    exact hget_append_left _ hk
  · intro q hq
    rcases List.mem_append.mp hq with hq17 | hqi
    · obtain ⟨hfq, hvq⟩ := hfr17b q hq17
      refine ⟨(codeMapLookup_cons_none hfq).2, by omega, ?_⟩
      exact doneEntry_patch ((hfr17 q hq17).2.2)
        (by have := hq1lt q hq17; omega) (by omega)
    · have hqe : q = (i, st.1.length) := by simpa using hqi
      subst hqe
      exact ⟨hl, Nat.le_refl _, hde⟩
  · show n0 ≤ (hset st7.1 _ _).length
    rw [hset_length]
    exact hn07
  · intro k hkn c0 hg0
    rw [hget_hset_ne _ (by omega : k ≠ st.1.length)] at hg0
    exact hcr7 k hkn c0 hg0
  · intro q hq
    obtain ⟨ha, hb1, hb2, c0, d0, hgc0, hgd0, hpd⟩ := hok7 q hq
    by_cases hbj : q.2 = st.1.length
    · have hqe : q = (i, st.1.length) := mem_snd_inj hvnd7 hq hmemij hbj
      rw [hqe]
      exact ⟨hi, by omega, by rw [hset_length]; omega, c, _, hgi2, hgj2,
        Or.inr hdn⟩
    · refine ⟨ha, hb1, by rw [hset_length]; exact hb2, c0, d0, ?_, ?_, hpd⟩
      · rw [hget_hset_ne _ (by omega : q.1 ≠ st.1.length)]
        exact hgc0
      · rw [hget_hset_ne _ hbj]
        exact hgd0
  · intro hno
    exact absurd hno (by simp)
  · intro a ha
    have hai : a = i := (Option.some.inj ha).symm
    subst hai
    have hM17none : codeMapLookup M17 a = none := by
      apply codeMapLookup_not_key
      intro q hq
      exact fun he =>
        ((codeMapLookup_cons_none (hfr17b q hq).1).1) he.symm
    have hlook : codeMapLookup st7.2 a = some st.1.length := by
      rw [hm7, codeMapLookup_append, hM17none]
      show codeMapLookup ((a, st.1.length) :: st.2) a = some st.1.length
      simp [codeMapLookup]
    exact ⟨by rw [hlook], by rw [hlook]; rfl⟩

theorem copy_none_eq (fuel : Nat) (st : CopyState) :
    copy fuel none st = some (st, none) := by
  cases fuel <;> rfl

theorem copy_hit_eq (fuel : Nat) (i : Nat) (st : CopyState) {j : Nat}
    (hl : codeMapLookup st.2 i = some j) :
    copy (fuel + 1) (some i) st = some (st, some j) := by
  unfold copy
  rw [hl]

theorem copy_zero_miss (i : Nat) (st : CopyState) :
    copy 0 (some i) st = none := rfl

theorem copy_dangling (fuel : Nat) (i : Nat) (st : CopyState)
    (hl : codeMapLookup st.2 i = none) (hgi : hget st.1 i = none) :
    copy (fuel + 1) (some i) st = none := by
  unfold copy
  rw [hl, hgi]

theorem copy_fresh_eq (fuel : Nat) (i : Nat) (st : CopyState)
    (hl : codeMapLookup st.2 i = none) {c : opcode}
    (hgi : hget st.1 i = some c) :
    copy (fuel + 1) (some i) st =
      (match copy fuel c.mapKey (st.1 ++ [placeholder c],
          (i, st.1.length) :: st.2) with
       | none => none
       | some (st2, mk) =>
         match copy fuel c.mapValue st2 with
         | none => none
         | some (st3, mv) =>
           match copy fuel c.elem st3 with
           | none => none
           | some (st4, el) =>
             match copy fuel c.end_ st4 with
             | none => none
             | some (st5, en) =>
               match copy fuel c.nextField st5 with
               | none => none
               | some (st6, nf) =>
                 match copy fuel c.next st6 with
                 | none => none
                 | some (st7, nx) =>
                   some ((hset st7.1 st.1.length
                     { c with
                         mapKey := mk, mapValue := mv, elem := el,
                         end_ := en, nextField := nf, next := nx,
                         jmp := c.jmp }, st7.2), some st.1.length)) := by
  conv_lhs => rw [copy]
  rw [hl, hgi]

/-- The master specification of `copy`: starting from a sane state, a
successful call extends the arena with fresh, finished clones, keeps the
invariant, and returns the memoised clone of its argument. -/
theorem copy_master (n0 : Nat) : ∀ fuel, MasterStmt n0 fuel := by
  intro fuel
  induction fuel with
  | zero =>
    intro i? st st' r hinv hbound hc
    cases i? with
    | none =>
      rw [copy_none_eq] at hc
      obtain ⟨he1, he2⟩ := Prod.mk.injEq _ _ _ _ ▸ Option.some.inj hc
      subst he1
      subst he2
      exact ⟨copyExt_refl st, hinv, fun _ => ⟨rfl, rfl⟩,
        fun a ha => absurd ha (by simp)⟩
    | some i =>
      rw [copy_zero_miss i st] at hc
      cases hc
  | succ fuel ih =>
    intro i? st st' r hinv hbound hc
    cases i? with
    | none =>
      rw [copy_none_eq] at hc
      obtain ⟨he1, he2⟩ := Prod.mk.injEq _ _ _ _ ▸ Option.some.inj hc
      subst he1
      subst he2
      exact ⟨copyExt_refl st, hinv, fun _ => ⟨rfl, rfl⟩,
        fun a ha => absurd ha (by simp)⟩
    | some i =>
      cases hl : codeMapLookup st.2 i with
      | some j =>
        rw [copy_hit_eq fuel i st hl] at hc
        obtain ⟨he1, he2⟩ := Prod.mk.injEq _ _ _ _ ▸ Option.some.inj hc
        subst he1
        subst he2
        refine ⟨copyExt_refl st, hinv, fun hno => absurd hno (by simp), ?_⟩
        intro a ha
        have : a = i := (Option.some.inj ha).symm
        subst this
        rw [hl]
        exact ⟨rfl, rfl⟩
      | none =>
        cases hgi : hget st.1 i with
        | none =>
          rw [copy_dangling fuel i st hl hgi] at hc
          cases hc
        | some c =>
          rw [copy_fresh_eq fuel i st hl hgi] at hc
          have hi : i < n0 := hbound i rfl
          have hinv1 : InvSt n0 (st.1 ++ [placeholder c],
              (i, st.1.length) :: st.2) :=
            inv_insert hinv hi hgi hl
          have hlinks := hinv.2.1 i hi c hgi
          cases hs1 : copy fuel c.mapKey (st.1 ++ [placeholder c],
              (i, st.1.length) :: st.2) with
          | none => rw [hs1] at hc; cases hc
          | some pr1 =>
            obtain ⟨st2, mk⟩ := pr1
            simp only [hs1] at hc
            have m1 : MasterConcl n0 (st.1 ++ [placeholder c],
                (i, st.1.length) :: st.2) c.mapKey st2 mk :=
              ih c.mapKey _ st2 mk hinv1
                (fun a ha => hlinks.1 a ha) hs1
            cases hs2 : copy fuel c.mapValue st2 with
            | none => rw [hs2] at hc; cases hc
            | some pr2 =>
              obtain ⟨st3, mv⟩ := pr2
              simp only [hs2] at hc
              have m2 : MasterConcl n0 st2 c.mapValue st3 mv :=
                ih c.mapValue st2 st3 mv m1.2.1
                  (fun a ha => hlinks.2.1 a ha) hs2
              cases hs3 : copy fuel c.elem st3 with
              | none => rw [hs3] at hc; cases hc
              | some pr3 =>
                obtain ⟨st4, el⟩ := pr3
                simp only [hs3] at hc
                have m3 : MasterConcl n0 st3 c.elem st4 el :=
                  ih c.elem st3 st4 el m2.2.1
                    (fun a ha => hlinks.2.2.1 a ha) hs3
                cases hs4 : copy fuel c.end_ st4 with
                | none => rw [hs4] at hc; cases hc
                | some pr4 =>
                  obtain ⟨st5, en⟩ := pr4
                  simp only [hs4] at hc
                  have m4 : MasterConcl n0 st4 c.end_ st5 en :=
                    ih c.end_ st4 st5 en m3.2.1
                      (fun a ha => hlinks.2.2.2.1 a ha) hs4
                  cases hs5 : copy fuel c.nextField st5 with
                  | none => rw [hs5] at hc; cases hc
                  | some pr5 =>
                    obtain ⟨st6, nf⟩ := pr5
                    simp only [hs5] at hc
                    have m5 : MasterConcl n0 st5 c.nextField st6 nf :=
                      ih c.nextField st5 st6 nf m4.2.1
                        (fun a ha => hlinks.2.2.2.2.1 a ha) hs5
                    cases hs6 : copy fuel c.next st6 with
                    | none => rw [hs6] at hc; cases hc
                    | some pr6 =>
                      obtain ⟨st7, nx⟩ := pr6
                      simp only [hs6] at hc
                      have m6 : MasterConcl n0 st6 c.next st7 nx :=
                        ih c.next st6 st7 nx m5.2.1
                          (fun a ha => hlinks.2.2.2.2.2 a ha) hs6
                      obtain ⟨he1, he2⟩ :=
                        Prod.mk.injEq _ _ _ _ ▸ Option.some.inj hc
                      subst he1
                      subst he2
                      exact copy_assemble hinv hi hgi hl rfl m1 m2 m3 m4 m5 m6

/-! ### Simulation lemmas for the clone -/

theorem linkMapped_none {m : codeMap} {x y : Option Nat}
    (hl : linkMapped m x y) (hx : x = none) : y = none := by
  subst hx
  exact hl.1

theorem linkMapped_some {m : codeMap} {x y : Option Nat}
    (hl : linkMapped m x y) {a : Nat} (hx : x = some a) :
    ∃ b, codeMapLookup m a = some b ∧ y = some b := by
  subst hx
  obtain ⟨hy, hk⟩ := hl
  have hs := hk a rfl
  cases hb : codeMapLookup m a with
  | none => rw [hb] at hs; simp at hs
  | some b =>
    refine ⟨b, rfl, ?_⟩
    have hy' : y = codeMapLookup m a := hy
    rw [hy', hb]

theorem done_scalars {m : codeMap} {c d : opcode} (hdn : doneNode m c d) :
    d.op = c.op ∧ d.displayIdx = c.displayIdx ∧ d.indent = c.indent ∧
    d.idx = c.idx ∧ d.headIdx = c.headIdx ∧ d.elemIdx = c.elemIdx ∧
    d.length = c.length ∧ d.mapIter = c.mapIter ∧ d.mapPos = c.mapPos ∧
    d.offset = c.offset ∧ d.size = c.size ∧ d.displayKey = c.displayKey := by
  refine ⟨?_, ?_, ?_, ?_, ?_, ?_, ?_, ?_, ?_, ?_, ?_, ?_⟩ <;> rw [hdn.1]

theorem done_lines {m : codeMap} {c d : opcode} (hdn : doneNode m c d) :
    dumpHead d = dumpHead c ∧ dumpMapHead d = dumpMapHead c ∧
    dumpMapEnd d = dumpMapEnd c ∧ dumpElem d = dumpElem c ∧
    dumpField d = dumpField c ∧ dumpKey d = dumpKey c ∧
    dumpValue d = dumpValue c ∧ dumpDefault d = dumpDefault c := by
  obtain ⟨hop, hdi, hin, hidx, hh, he, hl, hmi, hmp, hof, hsz, hdk⟩ :=
    done_scalars hdn
  refine ⟨?_, ?_, ?_, ?_, ?_, ?_, ?_, ?_⟩ <;>
    simp [dumpHead, dumpMapHead, dumpMapEnd, dumpElem, dumpField, dumpKey,
      dumpValue, dumpDefault, hop, hdi, hin, hidx, hh, he, hl, hmi, hmp,
      hof, hsz, hdk]

/-- The disassembly walk only reads nodes of the closed original region,
so it is unchanged when the arena grows. -/
theorem dumpLines_agree {h out : Heap} {n0 : Nat}
    (hpres : ∀ k, k < n0 → hget out k = hget h k)
    (hcr : closedRegion n0 h) :
    ∀ fuel a, a < n0 → dumpLines out fuel a = dumpLines h fuel a := by
  intro fuel
  induction fuel with
  | zero => intro a _; rfl
  | succ fuel ih =>
    intro a ha
    have hg' : hget out a = hget h a := hpres a ha
    cases hg : hget h a with
    | none => simp only [dumpLines, hg', hg]
    | some c =>
      simp only [dumpLines, hg', hg]
      by_cases hop : c.op = .opEnd
      · rw [if_pos hop, if_pos hop]
      · rw [if_neg hop, if_neg hop]
        obtain ⟨-, -, -, hend, -, hnext⟩ := hcr a ha c hg
        cases hk : c.op.codeType <;>
          simp only [hk] <;>
          first
          | (cases hstep : c.end_ with
             | none => simp only [hstep]
             | some j => simp only [hstep, ih j (hend j hstep)])
          | (cases hstep : c.next with
             | none => simp only [hstep]
             | some j => simp only [hstep, ih j (hnext j hstep)])

/-- The disassembly of a finished clone node sequence equals the original:
the clone walk visits the images of the original nodes and prints the same
lines. -/
theorem dumpLines_sim {out : Heap} {m : codeMap}
    (hall : ∀ a b, codeMapLookup m a = some b → doneEntry (out, m) a b) :
    ∀ fuel a b lines, codeMapLookup m a = some b →
      dumpLines out fuel a = some lines →
      dumpLines out fuel b = some lines := by
  intro fuel
  induction fuel with
  | zero => intro a b lines hab hd; simp [dumpLines] at hd
  | succ fuel ih =>
    intro a b lines hab hd
    obtain ⟨c, d, hga, hgb, hdn⟩ := hall a b hab
    simp only [dumpLines, hga] at hd
    show dumpLines out (fuel + 1) b = some lines
    simp only [dumpLines, hgb]
    obtain ⟨hop, -⟩ := done_scalars hdn
    obtain ⟨lh, lmh, lme, lel, lf, lk, lv, ldf⟩ := done_lines hdn
    by_cases hoe : c.op = .opEnd
    · rw [if_pos hoe] at hd
      rw [if_pos (by rw [hop]; exact hoe)]
      exact hd
    · rw [if_neg hoe] at hd
      rw [if_neg (by rw [hop]; exact hoe)]
      obtain ⟨-, d1, d2, d3, d4, d5, d6, -⟩ := hdn
      rw [hop]
      cases hk : c.op.codeType <;> simp only [hk] at hd ⊢ <;>
        first
        | (cases hstep : c.next with
           | none => rw [hstep] at hd; simp at hd
           | some j =>
             rw [hstep] at hd
             dsimp only at hd
             obtain ⟨j2, hjj2, hdy⟩ := linkMapped_some d6 hstep
             rw [hdy]
             dsimp only
             cases hrec : dumpLines out fuel j with
             | none => rw [hrec] at hd; simp at hd
             | some ls =>
               rw [hrec] at hd
               rw [ih j j2 ls hjj2 hrec]
               simp only [lh, lmh, lme, lel, lf, lk, lv, ldf]
               exact hd)
        | (cases hstep : c.end_ with
           | none => rw [hstep] at hd; simp at hd
           | some j =>
             rw [hstep] at hd
             dsimp only at hd
             obtain ⟨j2, hjj2, hdy⟩ := linkMapped_some d4 hstep
             rw [hdy]
             dsimp only
             cases hrec : dumpLines out fuel j with
             | none => rw [hrec] at hd; simp at hd
             | some ls =>
               rw [hrec] at hd
               rw [ih j j2 ls hjj2 hrec]
               simp only [lh, lmh, lme, lel, lf, lk, lv, ldf]
               exact hd)

/-! ### Claims C4, C5, C9 -/

theorem copyOpcode_spec {h : Heap} {i fuel : Nat} {out : Heap} {m : codeMap}
    {ro : Option Nat}
    (hcr : closedRegion h.length h) (hi : i < h.length)
    (hc : copyOpcode h i fuel = some ((out, m), ro)) :
    (∀ k, k < h.length → hget out k = hget h k) ∧
    (∀ a b, codeMapLookup m a = some b → doneEntry (out, m) a b) ∧
    (∀ a b, codeMapLookup m a = some b → a < h.length ∧ h.length ≤ b) ∧
    (∃ r, ro = some r ∧ codeMapLookup m i = some r) := by
  have hinv0 : InvSt h.length (h, []) :=
    ⟨Nat.le_refl _, hcr, List.nodup_nil, List.nodup_nil, by simp⟩
  have mc := copy_master h.length fuel (some i) (h, []) (out, m) ro hinv0
    (fun a ha => by cases ha; exact hi) hc
  obtain ⟨⟨hlen, hpres, mnew, hm, hok⟩, hinv2, hnone, hsome⟩ := mc
  have hm2 : m = mnew := by simpa using hm
  refine ⟨hpres, ?_, ?_, ?_⟩
  · intro a b hab
    have hmem := codeMapLookup_mem hab
    rw [hm2] at hmem
    exact (hok _ hmem).2.2
  · intro a b hab
    have hmem := codeMapLookup_mem hab
    constructor
    · exact (hinv2.2.2.2.2 _ hmem).1
    · rw [hm2] at hmem
      exact (hok _ hmem).2.1
  · obtain ⟨hr, hs⟩ := hsome i rfl
    obtain ⟨r, hro⟩ := Option.isSome_iff_exists.mp hs
    exact ⟨r, by rw [hr, hro], hro⟩

/-- Claim C4: disassembly is invariant under cloning — `dump` of the clone
root equals `dump` of the original root — and no clone node is identical
to any original node: every clone cell (every memo value, in particular
the clone root) lies strictly beyond the original arena. -/
theorem C4_dump_clone {h : Heap} {i fuel fuelD : Nat} {out : Heap}
    {m : codeMap} {r : Nat} {s : String}
    (hcr : closedRegion h.length h) (hi : i < h.length)
    (hc : copyOpcode h i fuel = some ((out, m), some r))
    (hd : dump h i fuelD = some s) :
    dump out r fuelD = some s ∧ h.length ≤ r ∧
    (∀ a b, codeMapLookup m a = some b → h.length ≤ b) := by
  obtain ⟨hpres, hall, hbounds, rr, hrr, hlook⟩ := copyOpcode_spec hcr hi hc
  have hreq : rr = r := (Option.some.inj hrr).symm
  subst hreq
  unfold dump at hd ⊢
  cases hdl : dumpLines h fuelD i with
  | none => rw [hdl] at hd; cases hd
  | some lines =>
    rw [hdl] at hd
    have hagree : dumpLines out fuelD i = dumpLines h fuelD i :=
      dumpLines_agree hpres hcr fuelD i hi
    have hsim : dumpLines out fuelD rr = some lines :=
      dumpLines_sim hall fuelD i rr lines hlook (by rw [hagree, hdl])
    rw [hsim]
    exact ⟨hd, (hbounds i rr hlook).2, fun a b hab => (hbounds a b hab).2⟩

theorem c4_closed : closedRegion c4Graph.length c4Graph := by
  intro k hk c hg
  have hk2 : k < 2 := by simpa [c4Graph] using hk
  interval_cases k <;>
    (simp only [c4Graph, hget, Option.some.injEq] at hg; subst hg;
     refine ⟨?_, ?_, ?_, ?_, ?_, ?_⟩ <;> (intro a ha; cases ha <;> decide))

/-- Claim C4, witness: the theorem applied to the two-node recursive-field
graph; cloning it and disassembling the clone root yields exactly the
original disassembly. -/
theorem C4_witness :
    (copyOpcode c4Graph 0 4).bind
        (fun p => p.2.bind (fun r => dump p.1.1 r 3)) =
      some "[0]STRUCT_FIELD_RECURSIVE ([idx:1][key:][offset:0][headIdx:0])" := by
  cases hc : copyOpcode c4Graph 0 4 with
  | none => exact absurd hc (by decide)
  | some p =>
    obtain ⟨⟨out, m⟩, ro⟩ := p
    cases ro with
    | none =>
      obtain ⟨-, -, -, r, hr, -⟩ := copyOpcode_spec c4_closed (by decide) hc
      cases hr
    | some r =>
      have hd0 : dump c4Graph 0 3 =
          some "[0]STRUCT_FIELD_RECURSIVE ([idx:1][key:][offset:0][headIdx:0])" := by
        decide
      have hmain := C4_dump_clone c4_closed (by decide) hc hd0
      simp only [Option.some_bind]
      exact hmain.1

theorem follow_sim {h out : Heap} {m : codeMap} {n0 : Nat}
    (hpres : ∀ k, k < n0 → hget out k = hget h k)
    (hall : ∀ a b, codeMapLookup m a = some b → doneEntry (out, m) a b)
    (hkeys : ∀ a b, codeMapLookup m a = some b → a < n0) :
    ∀ sels a b, codeMapLookup m a = some b →
      ∀ n, follow h sels a = some n →
        follow out sels b = codeMapLookup m n ∧
        (codeMapLookup m n).isSome = true := by
  intro sels
  induction sels with
  | nil =>
    intro a b hab n hf
    have han : a = n := Option.some.inj hf
    subst han
    constructor
    · show some b = codeMapLookup m a
      rw [hab]
    · rw [hab]
      rfl
  | cons s rest ih =>
    intro a b hab n hf
    obtain ⟨c, d, hgaOut, hgb, hdn⟩ := hall a b hab
    have hgaH : hget h a = some c := by
      rw [← hpres a (hkeys a b hab)]
      exact hgaOut
    simp only [follow, hgaH] at hf
    show follow out (s :: rest) b = _ ∧ _
    simp only [follow, hgb]
    obtain ⟨-, d1, d2, d3, d4, d5, d6, -⟩ := hdn
    have hlm : linkMapped m (getLink c s) (getLink d s) := by
      cases s with
      | selMapKey => exact d1
      | selMapValue => exact d2
      | selElem => exact d3
      | selEnd => exact d4
      | selNextField => exact d5
      | selNext => exact d6
    cases hcx : getLink c s with
    | none => rw [hcx] at hf; simp at hf
    | some j =>
      rw [hcx] at hf
      dsimp only at hf
      obtain ⟨j2, hjj2, hdx⟩ := linkMapped_some hlm hcx
      rw [hdx]
      dsimp only
      exact ih j j2 hjj2 n hf

/-- Claim C5: the clone preserves sharing.  The memo table is a function
`φ` from original nodes to clone nodes; every link path from the root in
the original maps to the corresponding path in the clone arriving at
`φ(n)` — so any two paths converging on a node `n` converge on the single
clone `φ(n)` — and each clone node's `jmp` is the very same subroutine
handle as its original's. -/
theorem C5_sharing {h : Heap} {i fuel : Nat} {out : Heap} {m : codeMap}
    {r : Nat}
    (hcr : closedRegion h.length h) (hi : i < h.length)
    (hc : copyOpcode h i fuel = some ((out, m), some r)) :
    codeMapLookup m i = some r ∧
    (∀ sels n, follow h sels i = some n →
      follow out sels r = codeMapLookup m n ∧
      (codeMapLookup m n).isSome = true) ∧
    (∀ a b, codeMapLookup m a = some b →
      ∀ c d, hget h a = some c → hget out b = some d → d.jmp = c.jmp) := by
  obtain ⟨hpres, hall, hbounds, rr, hrr, hlook⟩ := copyOpcode_spec hcr hi hc
  have hreq : rr = r := (Option.some.inj hrr).symm
  subst hreq
  refine ⟨hlook, ?_, ?_⟩
  · intro sels n hf
    exact follow_sim hpres hall (fun a b hab => (hbounds a b hab).1)
      sels i rr hlook n hf
  · intro a b hab c d hgc hgd
    obtain ⟨c0, d0, hgc0, hgd0, hdn⟩ := hall a b hab
    have hc0 : c0 = c := by
      have hx := hgc0
      rw [hpres a (hbounds a b hab).1, hgc] at hx
      exact (Option.some.inj hx).symm
    have hd0 : d0 = d := by
      have hx := hgd0
      rw [hgd] at hx
      exact (Option.some.inj hx).symm
    rw [← hc0, ← hd0]
    exact hdn.2.2.2.2.2.2.2

/-- Claim C5, witness: in the shared-terminal graph, the `next` path and
the `end` path both reach node 1; in the clone, both paths from the clone
root reach the single clone of node 1. -/
theorem C5_witness :
    ((copyOpcode c4Graph 0 4).bind (fun p => p.2.bind
      (fun r => follow p.1.1 [.selNext] r)) =
     (copyOpcode c4Graph 0 4).bind (fun p => p.2.bind
      (fun r => follow p.1.1 [.selEnd] r))) ∧
    (copyOpcode c4Graph 0 4).isSome = true := by
  cases hc : copyOpcode c4Graph 0 4 with
  | none => exact absurd hc (by decide)
  | some p =>
    obtain ⟨⟨out, m⟩, ro⟩ := p
    cases ro with
    | none =>
      obtain ⟨-, -, -, r, hr, -⟩ := copyOpcode_spec c4_closed (by decide) hc
      cases hr
    | some r =>
      have hmain := C5_sharing c4_closed (by decide) hc
      have h1 := hmain.2.1 [.selNext] 1 (by decide)
      have h2 := hmain.2.1 [.selEnd] 1 (by decide)
      simp only [Option.some_bind]
      exact ⟨by rw [h1.1, h2.1], rfl⟩

/-- Claim C9: cloning is total over absent links — copying a nil reference
returns nil unchanged, and every absent link of an original node is absent
in its clone. -/
theorem C9_nil_copy {h : Heap} {i fuel : Nat} {out : Heap} {m : codeMap}
    {r : Nat}
    (hcr : closedRegion h.length h) (hi : i < h.length)
    (hc : copyOpcode h i fuel = some ((out, m), some r)) :
    (∀ fuel2 st, copy fuel2 none st = some (st, none)) ∧
    (∀ a b, codeMapLookup m a = some b →
      ∀ c d, hget h a = some c → hget out b = some d →
        (c.mapKey = none → d.mapKey = none) ∧
        (c.mapValue = none → d.mapValue = none) ∧
        (c.elem = none → d.elem = none) ∧
        (c.end_ = none → d.end_ = none) ∧
        (c.nextField = none → d.nextField = none) ∧
        (c.next = none → d.next = none)) := by
  obtain ⟨hpres, hall, hbounds, rr, hrr, hlook⟩ := copyOpcode_spec hcr hi hc
  refine ⟨copy_none_eq, ?_⟩
  intro a b hab c d hgc hgd
  obtain ⟨c0, d0, hgc0, hgd0, hdn⟩ := hall a b hab
  have hc0 : c0 = c := by
    have hx := hgc0
    rw [hpres a (hbounds a b hab).1, hgc] at hx
    exact (Option.some.inj hx).symm
  have hd0 : d0 = d := by
    have hx := hgd0
    rw [hgd] at hx
    exact (Option.some.inj hx).symm
  subst hc0
  subst hd0
  obtain ⟨-, d1, d2, d3, d4, d5, d6, -⟩ := hdn
  exact ⟨linkMapped_none d1, linkMapped_none d2, linkMapped_none d3,
    linkMapped_none d4, linkMapped_none d5, linkMapped_none d6⟩

/-- Claim C9, witness: the theorem applied to the shared-terminal graph;
node 0's absent `mapKey` link is absent on its clone as well, and copying
a nil reference leaves the state untouched. -/
theorem C9_witness :
    copy 5 none (c4Graph, ([] : codeMap)) = some ((c4Graph, []), none) ∧
    (copyOpcode c4Graph 0 4).bind (fun p => p.2.bind
      (fun r => (hget p.1.1 r).map opcode.mapKey)) = some none := by
  cases hc : copyOpcode c4Graph 0 4 with
  | none => exact absurd hc (by decide)
  | some p =>
    obtain ⟨⟨out, m⟩, ro⟩ := p
    cases ro with
    | none =>
      obtain ⟨-, -, -, r, hr, -⟩ := copyOpcode_spec c4_closed (by decide) hc
      cases hr
    | some r =>
      have h9 := C9_nil_copy c4_closed (by decide) hc
      obtain ⟨hpres, hall, hbounds, rr, hrr, hlook⟩ :=
        copyOpcode_spec c4_closed (by decide) hc
      have hreq : rr = r := (Option.some.inj hrr).symm
      subst hreq
      obtain ⟨c0, d0, hgc0, hgd0, hdn⟩ := hall 0 rr hlook
      have hgcH : hget c4Graph 0 = some c0 := by
        rw [← hpres 0 (by decide)]
        exact hgc0
      have hmk : d0.mapKey = none := by
        refine (h9.2 0 rr hlook c0 d0 hgcH hgd0).1 ?_
        have hce : c0 =
            { op := .opStructFieldRecursive, idx := 8, next := some 1,
              end_ := some 1, jmp := some 7 } := by
          simp only [c4Graph, hget, Option.some.injEq] at hgcH
          exact hgcH.symm
        rw [hce]
      refine ⟨h9.1 5 (c4Graph, []), ?_⟩
      simp only [Option.some_bind]
      show (hget out rr).map opcode.mapKey = some none
      rw [hgd0]
      simp [hmk]

end GoJson
